import Mathlib

/-!
Verification of the FSM extraction / reconstruction engine of the
FSM_Graph_Viz repository, as a shallow embedding in Lean 4.

Modelling conventions, used throughout:

* Python strings are modelled as `List Char` (abbreviated `Str`).
  String literals are written as `"...".data`.
* The abstract syntax-tree interface (`kind(node)`, `children(node)`,
  `text(node)`) consumed by the engine (see `cst_service.py`) is modelled by
  the inductive type `Node`: each node carries its kind string, the optional
  text that `text_of` would return for it, and its ordered children.
* Python object identity (`id(node)`), which the enum resolver uses as a map
  key, is modelled by the node's address in the tree: the list of child
  indices from the root (`NodeId`).  Distinct tree positions are distinct
  objects, so path equality models identity.
* Python `dict` is modelled as an insertion-ordered association list with
  update-in-place semantics (`dictInsert` / `dictLookup`), matching dict
  iteration order.
* Fallible operations return `Option` / `Except`; raising `ValueError` in
  `FSMCodeGenerator._validate_graph` is modelled by `Except.error` carrying
  the message string.
* Python truthiness on strings/options (`if not x:`) is modelled explicitly:
  `none` and the empty string are both falsy.
-/

set_option maxHeartbeats 2000000
set_option maxRecDepth 4000

abbrev Str := List Char

/-- Python `\s` (ASCII whitespace as used by `re` and `str.strip` on the
ASCII texts this engine manipulates). -/
def isPySpace (c : Char) : Bool :=
  c = ' ' || c = '\t' || c = '\n' || c = '\x0d' || c = '\x0c' || c = '\x0b'

/-- Python `\w` word character (ASCII range). -/
def isPyWord (c : Char) : Bool :=
  ('a' ≤ c && c ≤ 'z') || ('A' ≤ c && c ≤ 'Z') || ('0' ≤ c && c ≤ '9') || c = '_'

/-- First character of a Python identifier: `[A-Za-z_]`. -/
def isPyIdentStart (c : Char) : Bool :=
  ('a' ≤ c && c ≤ 'z') || ('A' ≤ c && c ≤ 'Z') || c = '_'

/-- `re.sub(r"\s+", "", txt)`: delete all whitespace. -/
def removeWs (s : Str) : Str := s.filter (fun c => !isPySpace c)

/-- Python `str.strip()`. -/
def pyStrip (s : Str) : Str :=
  ((s.dropWhile isPySpace).reverse.dropWhile isPySpace).reverse

/-- Python `str.lower()` (ASCII). -/
def toLowerStr (s : Str) : Str := s.map Char.toLower

/-- Does `p` occur at the very start of `s`?  (prefix test used by the
substring search). -/
def strStartsWith : Str → Str → Bool
  | [], _ => true
  | _ :: _, [] => false
  | p :: ps, s :: ss => p = s && strStartsWith ps ss

/-- Python `str.find(pat)`: index of the first occurrence of `pat`, if any.
`strFind [] s = some 0`, matching Python's `s.find("") == 0`. -/
def strFind (pat : Str) : Str → Option Nat
  | [] => if strStartsWith pat [] then some 0 else none
  | c :: t => if strStartsWith pat (c :: t) then some 0 else (strFind pat t).map (· + 1)

/-- Python `pat in s` (substring containment). -/
def strContains (s pat : Str) : Bool := (strFind pat s).isSome

/-- Python `str.endswith(p)`. -/
def strEndsWith (s p : Str) : Bool := strStartsWith p.reverse s.reverse

/-- Python `str.split()` (split on whitespace runs, no empty parts);
helper carrying the word accumulated so far, in reverse. -/
def pySplitWsGo : Str → Str → List Str
  | acc, [] => if acc = [] then [] else [acc.reverse]
  | acc, c :: t =>
    if isPySpace c then
      if acc = [] then pySplitWsGo [] t else acc.reverse :: pySplitWsGo [] t
    else pySplitWsGo (c :: acc) t

/-- Python `str.split()`. -/
def pySplitWs (s : Str) : List Str := pySplitWsGo [] s

/-- Decimal digit character for `d < 10`. -/
def digitChar (d : Nat) : Char := Char.ofNat (48 + d)

/-- Decimal representation of a natural number, as Python `str(n)` produces
for a non-negative integer. -/
def natDigits (n : Nat) : Str :=
  if _h : n < 10 then [digitChar n]
  else natDigits (n / 10) ++ [digitChar (n % 10)]
termination_by n
decreasing_by exact Nat.div_lt_self (by omega) (by omega)

/-- Order-preserving deduplication keeping the FIRST occurrence, as Python's
`seen`-set loops do. -/
def uniqKeepFirstGo [DecidableEq α] (seen : List α) : List α → List α
  | [] => []
  | x :: xs => if x ∈ seen then uniqKeepFirstGo seen xs else x :: uniqKeepFirstGo (x :: seen) xs

/-- Deduplicate keeping first occurrences (Python `seen = set()` idiom). -/
def uniqKeepFirst [DecidableEq α] (l : List α) : List α := uniqKeepFirstGo [] l

/-- Python dict assignment `d[k] = v`: update in place if the key exists
(keeping its original position, as dict iteration order does), else append. -/
def dictInsert [DecidableEq κ] (d : List (κ × α)) (k : κ) (v : α) : List (κ × α) :=
  match d with
  | [] => [(k, v)]
  | (k', v') :: rest => if k' = k then (k, v) :: rest else (k', v') :: dictInsert rest k v

/-- Python `d.get(k)`. -/
def dictLookup [DecidableEq κ] (d : List (κ × α)) (k : κ) : Option α :=
  match d with
  | [] => none
  | (k', v') :: rest => if k' = k then some v' else dictLookup rest k

/-- First `some` produced by `f` over a list (models loops that `break` on
the first hit). -/
def firstSome (f : α → Option β) : List α → Option β
  | [] => none
  | x :: xs => match f x with
    | some b => some b
    | none => firstSome f xs

-- ------------------------------------------------------------------
-- Basic lemmas about the string utilities
-- ------------------------------------------------------------------

theorem strFind_mem_of_some {pat s : Str} {i : Nat} (h : strFind pat s = some i) :
    ∃ a b, s = a ++ b ∧ a.length = i ∧ strStartsWith pat b = true := by
  induction s generalizing i with
  | nil =>
    simp only [strFind] at h
    split at h
    · exact ⟨[], [], by simp_all⟩
    · simp at h
  | cons c t ih =>
    simp only [strFind] at h
    split at h
    · exact ⟨[], c :: t, by simp_all⟩
    · simp only [Option.map_eq_some'] at h
      obtain ⟨j, hj, rfl⟩ := h
      obtain ⟨a, b, rfl, ha, hb⟩ := ih hj
      exact ⟨c :: a, b, by simp_all⟩

theorem strStartsWith_append (p s : Str) (h : strStartsWith p s = true) :
    ∃ r, s = p ++ r := by
  induction p generalizing s with
  | nil => exact ⟨s, rfl⟩
  | cons c t ih =>
    cases s with
    | nil => simp [strStartsWith] at h
    | cons c' t' =>
      simp only [strStartsWith, Bool.and_eq_true, decide_eq_true_eq] at h
      obtain ⟨rfl, h2⟩ := h
      obtain ⟨r, rfl⟩ := ih t' h2
      exact ⟨r, rfl⟩

theorem strContains_spec {s pat : Str} (h : strContains s pat = true) :
    ∃ a b, s = a ++ pat ++ b := by
  simp only [strContains, Option.isSome_iff_exists] at h
  obtain ⟨i, hi⟩ := h
  obtain ⟨a, b, rfl, _, hb⟩ := strFind_mem_of_some hi
  obtain ⟨r, rfl⟩ := strStartsWith_append _ _ hb
  exact ⟨a, r, by simp⟩

theorem uniqKeepFirstGo_subset [DecidableEq α] (seen : List α) (l : List α) :
    ∀ x ∈ uniqKeepFirstGo seen l, x ∈ l := by
  induction l generalizing seen with
  | nil => simp [uniqKeepFirstGo]
  | cons y ys ih =>
    intro x hx
    simp only [uniqKeepFirstGo] at hx
    split at hx
    · exact List.mem_cons_of_mem _ (ih seen x hx)
    · rcases List.mem_cons.1 hx with rfl | hx'
      · exact List.mem_cons_self _ _
      · exact List.mem_cons_of_mem _ (ih _ x hx')

theorem uniqKeepFirstGo_mem [DecidableEq α] (seen : List α) (l : List α)
    (x : α) (hx : x ∈ l) (hs : x ∉ seen) : x ∈ uniqKeepFirstGo seen l := by
  induction l generalizing seen with
  | nil => simp at hx
  | cons y ys ih =>
    simp only [uniqKeepFirstGo]
    rcases List.mem_cons.1 hx with rfl | hx'
    · split
      · exact absurd ‹x ∈ seen› hs
      · exact List.mem_cons_self _ _
    · split
      · exact ih _ hx' hs
      · by_cases hxy : x = y
        · subst hxy; exact List.mem_cons_self _ _
        · exact List.mem_cons_of_mem _ (ih _ hx' (by simp [hs, hxy]))

theorem uniqKeepFirstGo_nodup [DecidableEq α] (seen : List α) (l : List α) :
    ((uniqKeepFirstGo seen l).Nodup) ∧ ∀ x ∈ uniqKeepFirstGo seen l, x ∉ seen := by
  induction l generalizing seen with
  | nil => simp [uniqKeepFirstGo]
  | cons y ys ih =>
    simp only [uniqKeepFirstGo]
    split
    · exact ih seen
    · obtain ⟨hnd, hns⟩ := ih (y :: seen)
      refine ⟨List.nodup_cons.2 ⟨fun hmem => ?_, hnd⟩, ?_⟩
      · exact (hns y hmem) (List.mem_cons_self _ _)
      · intro x hx
        rcases List.mem_cons.1 hx with rfl | hx'
        · assumption
        · intro hxs
          exact (hns x hx') (List.mem_cons_of_mem _ hxs)

theorem uniqKeepFirst_nodup [DecidableEq α] (l : List α) : (uniqKeepFirst l).Nodup :=
  (uniqKeepFirstGo_nodup [] l).1

theorem uniqKeepFirst_mem_iff [DecidableEq α] (l : List α) (x : α) :
    x ∈ uniqKeepFirst l ↔ x ∈ l := by
  constructor
  · exact uniqKeepFirstGo_subset [] l x
  · intro h; exact uniqKeepFirstGo_mem [] l x h (by simp)

theorem dictLookup_dictInsert_same [DecidableEq κ] (d : List (κ × α)) (k : κ) (v : α) :
    dictLookup (dictInsert d k v) k = some v := by
  induction d with
  | nil => simp [dictInsert, dictLookup]
  | cons p rest ih =>
    obtain ⟨k', v'⟩ := p
    simp only [dictInsert]
    split
    · simp [dictLookup]
    · simp only [dictLookup]
      split
      · simp_all
      · exact ih

theorem dictLookup_dictInsert_other [DecidableEq κ] (d : List (κ × α)) (k k' : κ) (v : α)
    (h : k' ≠ k) : dictLookup (dictInsert d k v) k' = dictLookup d k' := by
  have hkk : k ≠ k' := fun hh => h hh.symm
  induction d with
  | nil => simp [dictInsert, dictLookup, hkk]
  | cons p rest ih =>
    obtain ⟨k₀, v₀⟩ := p
    simp only [dictInsert]
    split
    · subst ‹k₀ = k›
      simp [dictLookup, hkk]
    · simp only [dictLookup]
      split
      · rfl
      · exact ih

/-- Looking up in a dict built by repeatedly `d[key x] = val x` over `xs`
either hits the initial dict or some element of `xs`. -/
theorem dictLookup_foldl_insert [DecidableEq κ] (key : α → κ) (val : α → β)
    (xs : List α) (init : List (κ × β)) (k : κ) (v : β)
    (h : dictLookup (xs.foldl (fun d x => dictInsert d (key x) (val x)) init) k = some v) :
    (dictLookup init k = some v) ∨ ∃ x ∈ xs, key x = k ∧ val x = v := by
  induction xs generalizing init with
  | nil => exact Or.inl h
  | cons x xs ih =>
    simp only [List.foldl_cons] at h
    rcases ih _ h with h' | ⟨y, hy, hk, hv⟩
    · by_cases hkx : key x = k
      · subst hkx
        rw [dictLookup_dictInsert_same] at h'
        exact Or.inr ⟨x, List.mem_cons_self _ _, rfl, Option.some.inj h'⟩
      · rw [dictLookup_dictInsert_other _ _ _ _ (fun hh => hkx hh.symm)] at h'
        exact Or.inl h'
    · exact Or.inr ⟨y, List.mem_cons_of_mem _ hy, hk, hv⟩

-- ==================================================================
-- The abstract syntax tree interface (cst_service.py)
-- ==================================================================

/-- A syntax-tree node as seen through the engine's abstract tree interface
(`cst_service.py`): `kind(n)`, `text_of(n)` (optional) and `children(n)`. -/
inductive Node where
  | mk (kind : Str) (text : Option Str) (children : List Node)

/-- `kind(n)` of cst_service.py. -/
def Node.kind : Node → Str
  | .mk k _ _ => k

/-- `text_of(n)` of cst_service.py. -/
def Node.text : Node → Option Str
  | .mk _ t _ => t

/-- `children(n)` of cst_service.py. -/
def Node.children : Node → List Node
  | .mk _ _ cs => cs

/-- A tree address: list of child indices from the root.  Models Python
object identity (`id(node)`) — distinct positions are distinct objects. -/
abbrev NodeId := List Nat

mutual
/-- The leaf-text concatenation done by `collect_identifiers_inline`'s inner
`walk`: a leaf with non-empty text contributes its text, any other node
contributes the concatenation over its children. -/
def collectParts : Node → Str
  | .mk _ t [] => match t with
    | some s => s
    | none => []
  | .mk _ _ (c :: cs) => collectPartsList (c :: cs)

def collectPartsList : List Node → Str
  | [] => []
  | c :: cs => collectParts c ++ collectPartsList cs
end

/-- `collect_identifiers_inline(n)`: join all leaf texts and `strip()`. -/
def collectIdentifiersInline (n : Node) : Str := pyStrip (collectParts n)

mutual
/-- `find_all(n, kind_name)`, enriched with each found node's tree address
(standing in for Python `id()`); pre-order, node itself first. -/
def findAllP (k : Str) (p : NodeId) : Node → List (NodeId × Node)
  | .mk kd t cs =>
    (if kd = k then [(p, Node.mk kd t cs)] else []) ++ findAllPList k p 0 cs

def findAllPList (k : Str) (p : NodeId) : Nat → List Node → List (NodeId × Node)
  | _, [] => []
  | i, c :: cs => findAllP k (p ++ [i]) c ++ findAllPList k p (i + 1) cs
end

/-- `find_all(n, kind_name)` where identity is not needed. -/
def findAllN (k : Str) (n : Node) : List Node := (findAllP k [] n).map Prod.snd

mutual
/-- `find_first(n, kind_name)`: the node itself if its kind matches, else the
first match among the children, depth-first. -/
def findFirstN (k : Str) : Node → Option Node
  | .mk kd t cs => if kd = k then some (Node.mk kd t cs) else findFirstNList k cs

def findFirstNList (k : Str) : List Node → Option Node
  | [] => none
  | c :: cs => match findFirstN k c with
    | some r => some r
    | none => findFirstNList k cs
end

/-- `first_identifier_text(n)`. -/
def firstIdentifierText (n : Node) : Option Str :=
  match findFirstN "Identifier".data n with
  | some nd => nd.text
  | none => none

-- ==================================================================
-- Code generator (backend/code_generator.py, class FSMCodeGenerator)
-- ==================================================================

/-- One entry of a graph's `transitions` list, as the serialized contract
`{from, to, cond}` (field `from` is spelled `frm`, `from` being reserved). -/
structure TransIn where
  frm : Str
  dst : Str
  cond : Str
deriving DecidableEq

/-- An `FSMGraph` as handed to `generate_code_from_graph` (the serialized
record of §6 of the spec; `metadata` is ignored by the generator). -/
structure FSMGraphIn where
  scope : Str
  state_var : Str
  next_state_var : Option Str
  enum_name : Str
  states : List Str
  reset_state : Option Str
  transitions : List TransIn

/-- Python truthiness of an optional string (`if x:`): present and
non-empty. -/
def optTruthy : Option Str → Bool
  | none => false
  | some s => s ≠ []

/-- The per-transition part of `_validate_graph`'s loop: the first transition
with an endpoint outside `states` raises (from-check before to-check). -/
def validateTransGo (states : List Str) : List TransIn → Except Str Unit
  | [] => .ok ()
  | t :: ts =>
    if t.frm ∈ states then
      if t.dst ∈ states then validateTransGo states ts
      else .error ("Transition to unknown state: ".data ++ t.dst)
    else .error ("Transition from unknown state: ".data ++ t.frm)

/-- `FSMCodeGenerator._validate_graph`: duplicate-state check
(`len(states) != len(set(states))`), then the transition loop, then the
reset-state check (`if reset_state and reset_state not in states`). -/
def validateGraph (g : FSMGraphIn) : Except Str Unit :=
  if g.states.length ≠ (uniqKeepFirst g.states).length then
    .error "Duplicate states found".data
  else match validateTransGo g.states g.transitions with
    | .error e => .error e
    | .ok _ => match g.reset_state with
      | some r =>
        if r ≠ [] ∧ r ∉ g.states then
          .error ("Reset state ".data ++ r ++ " not in states list".data)
        else .ok ()
      | none => .ok ()

/-- `FSMCodeGenerator._detect_fsm_style`. -/
def detectFsmStyle (g : FSMGraphIn) : Str :=
  if optTruthy g.next_state_var then "two_register".data else "single_register".data

/-- `FSMCodeGenerator._calculate_enum_width`.  The source's final branch
computes `math.ceil(math.log2(num_states))`; it is modelled by the exact
base-2 ceiling logarithm `Nat.clog 2`, with which the float computation
agrees on every realizable states-list size. -/
def calculateEnumWidth (numStates : Nat) : Nat :=
  if numStates ≤ 2 then 1
  else if numStates ≤ 4 then 2
  else if numStates ≤ 8 then 3
  else if numStates ≤ 16 then 4
  else Nat.clog 2 numStates

/-- `FSMCodeGenerator._generate_enum`. -/
def generateEnum (g : FSMGraphIn) : Str :=
  if g.states = [] then
    "typedef enum logic [1:0] \x7b\x7d ".data ++ g.enum_name ++ ";".data
  else
    let width := calculateEnumWidth g.states.length
    let lines := ["  typedef enum logic [".data ++ natDigits (width - 1) ++ ":0] \x7b".data]
      ++ [List.intercalate ",\n".data (g.states.map (fun s => "    ".data ++ s))]
      ++ ["  \x7d ".data ++ g.enum_name ++ ";".data]
    List.intercalate "\n".data lines

/-- `FSMCodeGenerator._generate_variable_declarations`. -/
def generateVariableDeclarations (g : FSMGraphIn) : Str :=
  let lines := ["  ".data ++ g.enum_name ++ " ".data ++ g.state_var ++ ";".data]
    ++ (if optTruthy g.next_state_var then
          ["  ".data ++ g.enum_name ++ " ".data ++ (g.next_state_var.getD []) ++ ";".data]
        else [])
  List.intercalate "\n".data lines

/-- Length of the leading whitespace run (`\s*` at the head, maximal munch —
the only viable munch, since each pattern continues with a
non-whitespace requirement). -/
def countLeadingWs : Str → Nat
  | [] => 0
  | c :: t => if isPySpace c then countLeadingWs t + 1 else 0

/-- Generic `re.search`: try the single-position matcher at each position,
left to right, returning the first hit. -/
def reSearch (m : Str → Option α) : Str → Option α
  | [] => m []
  | c :: t => match m (c :: t) with
    | some r => some r
    | none => reSearch m t

/-- Match `always_ff\s*@\s*\(posedge\s+(\w+)` anchored at the head of `s`,
returning the captured signal name (`_extract_clock_signal`'s pattern). -/
def matchClockHere (s : Str) : Option Str :=
  if strStartsWith "always_ff".data s then
    let r1 := s.drop 9
    let r2 := r1.drop (countLeadingWs r1)
    match r2 with
    | '@' :: r3 =>
      let r4 := r3.drop (countLeadingWs r3)
      match r4 with
      | '(' :: r5 =>
        if strStartsWith "posedge".data r5 then
          let r6 := r5.drop 7
          let k := countLeadingWs r6
          if k = 0 then none
          else
            let w := (r6.drop k).takeWhile isPyWord
            if w = [] then none else some w
        else none
      | _ => none
    | _ => none
  else none

/-- `FSMCodeGenerator._extract_clock_signal`. -/
def extractClockSignal (orig : Str) : Str :=
  if orig = [] then "clk".data
  else match reSearch matchClockHere orig with
    | some w => w
    | none => "clk".data

/-- Match `(?:posedge|negedge)\s+(\w+)` anchored at the head of `s`. -/
def edgeSigMatch (s : Str) : Option Str :=
  if strStartsWith "posedge".data s || strStartsWith "negedge".data s then
    let r := s.drop 7
    let k := countLeadingWs r
    if k = 0 then none
    else
      let w := (r.drop k).takeWhile isPyWord
      if w = [] then none else some w
  else none

/-- Greedy `[^)]*(?:posedge|negedge)\s+(\w+)`: try the largest skip first
(regex backtracking from the maximal munch). -/
def tryEdgeDesc (r : Str) : Nat → Option Str
  | 0 => edgeSigMatch r
  | k + 1 => match edgeSigMatch (r.drop (k + 1)) with
    | some w => some w
    | none => tryEdgeDesc r k

/-- Match `always_ff\s*@\s*\([^)]*(?:posedge|negedge)\s+(\w+)` anchored at
the head of `s` (`_extract_reset_signal`'s pattern). -/
def matchResetHere (s : Str) : Option Str :=
  if strStartsWith "always_ff".data s then
    let r1 := s.drop 9
    let r2 := r1.drop (countLeadingWs r1)
    match r2 with
    | '@' :: r3 =>
      let r4 := r3.drop (countLeadingWs r3)
      match r4 with
      | '(' :: r5 => tryEdgeDesc r5 (r5.takeWhile (fun c => c ≠ ')')).length
      | _ => none
    | _ => none
  else none

/-- `FSMCodeGenerator._extract_reset_signal`. -/
def extractResetSignal (orig : Str) : Str :=
  if orig = [] then "rst".data
  else match reSearch matchResetHere orig with
    | some w => w
    | none => "rst".data

/-- `FSMCodeGenerator._extract_reset_polarity`. -/
def extractResetPolarity (orig : Str) : Str :=
  if orig ≠ [] ∧ strContains orig "negedge".data ∧ strContains (toLowerStr orig) "rst".data
  then "negedge".data else "posedge".data

/-- `FSMCodeGenerator._generate_always_ff` (the `style` parameter is unused
by the source body and therefore not modelled). -/
def generateAlwaysFF (orig : Str) (g : FSMGraphIn) : Str :=
  let sv := g.state_var
  let clock := extractClockSignal orig
  let rsig := extractResetSignal orig
  let pol := extractResetPolarity orig
  let lines :=
    ["  always_ff @(posedge ".data ++ clock ++ " or ".data ++ pol ++ " ".data ++ rsig
      ++ ") begin".data]
    ++ (if optTruthy g.reset_state then
          let rc := if pol = "negedge".data then "!".data else []
          ["    if (".data ++ rc ++ rsig ++ ")".data,
           "      ".data ++ sv ++ " <= ".data ++ (g.reset_state.getD []) ++ ";".data,
           "    else".data]
        else [])
    ++ (if optTruthy g.next_state_var then
          ["      ".data ++ sv ++ " <= ".data ++ (g.next_state_var.getD []) ++ ";".data]
        else ["      ".data ++ sv ++ " <= ".data ++ sv ++ ";".data])
    ++ ["  end".data]
  List.intercalate "\n".data lines

/-- `transitions_by_state[from].append(trans)` with `setdefault`-style
creation on first use. -/
def groupInsert [DecidableEq κ] (d : List (κ × List α)) (k : κ) (x : α) : List (κ × List α) :=
  match d with
  | [] => [(k, [x])]
  | (k', xs) :: rest =>
    if k' = k then (k', xs ++ [x]) :: rest else (k', xs) :: groupInsert rest k x

/-- The grouping loop at the top of `_generate_always_comb`. -/
def transitionsByState (ts : List TransIn) : List (Str × List TransIn) :=
  ts.foldl (fun d t => groupInsert d t.frm t) []

/-- The two-or-one lines emitted for the `i`-th transition of a branch in
`_generate_always_comb`: unconditional guards (`"1"`, empty) give a plain
assignment; otherwise `if` at group index 0 and `else if` at any later
group index. -/
def combEdgeLines (target : Str) (i : Nat) (t : TransIn) : List Str :=
  if t.cond = "1".data ∨ t.cond = [] then
    ["        ".data ++ target ++ " = ".data ++ t.dst ++ ";".data]
  else
    [(if i = 0 then "        if (".data else "        else if (".data) ++ t.cond ++ ")".data,
     "          ".data ++ target ++ " = ".data ++ t.dst ++ ";".data]

/-- One `case` branch of `_generate_always_comb` for `from_state`. -/
def combBranchLines (target : Str) (fromState : Str) (stateTrans : List TransIn) : List Str :=
  ["      ".data ++ fromState ++ ": begin".data]
  ++ (if stateTrans = [] then
        ["        ".data ++ target ++ " = ".data ++ fromState ++ ";".data]
      else (stateTrans.enum.map (fun p => combEdgeLines target p.1 p.2)).flatten)
  ++ ["      end".data]

/-- `FSMCodeGenerator._generate_always_comb` as its list of emitted lines
(the source joins them with newlines; the unused `style` parameter is not
modelled). -/
def generateAlwaysCombLines (g : FSMGraphIn) : List Str :=
  let sv := g.state_var
  let target := if optTruthy g.next_state_var then g.next_state_var.getD [] else sv
  let tbs := transitionsByState g.transitions
  ["  always_comb begin".data]
  ++ (if optTruthy g.next_state_var then
        ["    ".data ++ target ++ " = ".data ++ sv ++ ";".data]
      else [])
  ++ ["    unique case (".data ++ sv ++ ")".data]
  ++ (g.states.map (fun s => combBranchLines target s ((dictLookup tbs s).getD []))).flatten
  ++ ["      default: begin".data,
      "        ".data ++ target ++ " = ".data ++ sv ++ ";".data,
      "      end".data]
  ++ ["    endcase".data, "  end".data]

/-- `FSMCodeGenerator._generate_always_comb`. -/
def generateAlwaysComb (g : FSMGraphIn) : Str :=
  List.intercalate "\n".data (generateAlwaysCombLines g)

/-- `FSMCodeGenerator._assemble_code`. -/
def assembleCode (moduleName enumCode varDecls ffCode combCode : Str) : Str :=
  List.intercalate "\n".data
    ["module ".data ++ moduleName ++ " (".data,
     "  input  logic clk,".data,
     "  input  logic rst,".data,
     "  // TODO: add other ports as needed".data,
     ");".data,
     [],
     enumCode,
     [],
     varDecls,
     [],
     ffCode,
     [],
     combCode,
     [],
     "endmodule : ".data ++ moduleName]

/-- Module-name derivation in `generate_code_from_graph` when no name is
passed: taken from the last whitespace-separated word of `scope`. -/
def deriveModuleName (scope : Str) : Str :=
  let parts := pySplitWs scope
  if parts.length > 1 then (parts.getLast?).getD "fsm_example".data else "fsm_example".data

/-- `FSMCodeGenerator.generate_code_from_graph`: validates, then assembles
the generated source.  A raised `ValueError` is the `Except.error` case.
(`_detect_fsm_style`'s result is passed to the two emitters but unused by
their bodies.) -/
def generateCodeFromGraph (orig : Str) (g : FSMGraphIn) (moduleName : Option Str) :
    Except Str Str :=
  match validateGraph g with
  | .error e => .error e
  | .ok _ =>
    let name := match moduleName with
      | some m => if m = [] then deriveModuleName g.scope else m
      | none => deriveModuleName g.scope
    .ok (assembleCode name (generateEnum g) (generateVariableDeclarations g)
      (generateAlwaysFF orig g) (generateAlwaysComb g))

-- ==================================================================
-- Specification-side definitions for the code-generator claims
-- ==================================================================

/-- Spec-side emission of one transition of a branch, written from the
amended wording of claim C3: an unconditional edge (guard `"1"` or empty)
is a plain assignment; a conditional edge is introduced by `if` when it is
the FIRST EDGE of its group (group index 0) and by `else if` at any later
group index — even when no conditional edge precedes it. -/
def specEdgeLines (target : Str) (i : Nat) (t : TransIn) : List Str :=
  if t.cond = "1".data ∨ t.cond = [] then
    ["        ".data ++ target ++ " = ".data ++ t.dst ++ ";".data]
  else if i = 0 then
    ["        if (".data ++ t.cond ++ ")".data,
     "          ".data ++ target ++ " = ".data ++ t.dst ++ ";".data]
  else
    ["        else if (".data ++ t.cond ++ ")".data,
     "          ".data ++ target ++ " = ".data ++ t.dst ++ ";".data]

/-- Spec-side branch for one `from` state: its edges are exactly the
transitions whose `from` equals the state, in edge-list order; an empty
group holds the current state. -/
def specBranchLines (target : Str) (fromState : Str) (group : List TransIn) : List Str :=
  ["      ".data ++ fromState ++ ": begin".data]
  ++ (if group = [] then
        ["        ".data ++ target ++ " = ".data ++ fromState ++ ";".data]
      else (group.enum.map (fun p => specEdgeLines target p.1 p.2)).flatten)
  ++ ["      end".data]

/-- Spec-side version of the combinational next-state block, written from
the amended claim C3: edges grouped by `from` via filtering the edge list,
branches in `states` order, an explicit default holding the current
state. -/
def specCombLines (g : FSMGraphIn) : List Str :=
  let sv := g.state_var
  let target := if optTruthy g.next_state_var then g.next_state_var.getD [] else sv
  ["  always_comb begin".data]
  ++ (if optTruthy g.next_state_var then
        ["    ".data ++ target ++ " = ".data ++ sv ++ ";".data]
      else [])
  ++ ["    unique case (".data ++ sv ++ ")".data]
  ++ (g.states.map (fun s =>
        specBranchLines target s (g.transitions.filter (fun t => t.frm = s)))).flatten
  ++ ["      default: begin".data,
      "        ".data ++ target ++ " = ".data ++ sv ++ ";".data,
      "      end".data]
  ++ ["    endcase".data, "  end".data]

/-- Concrete graph on which claim C1 as stated fails: `reset_state` is set
(present) but holds the empty string, which is not in `states`; the
generator's truthiness test skips the check. -/
def c1GraphEmptyReset : FSMGraphIn :=
  { scope := "module m".data
    state_var := "state".data
    next_state_var := none
    enum_name := "state_t".data
    states := ["A".data]
    reset_state := some []
    transitions := [] }

/-- Concrete graph on which claim C3 as stated fails: in the group of
`from`-state `A`, an unconditional edge precedes the only conditional
edge, so the first conditional edge is emitted with `else if`. -/
def c3GraphMixed : FSMGraphIn :=
  { scope := "module m".data
    state_var := "s".data
    next_state_var := some "n".data
    enum_name := "e_t".data
    states := ["A".data, "B".data, "C".data]
    reset_state := none
    transitions := [⟨"A".data, "B".data, "1".data⟩, ⟨"A".data, "C".data, "c".data⟩] }

/-- A well-formed graph used by the generator witnesses. -/
def genWitnessGraph : FSMGraphIn :=
  { scope := "module fsm_example".data
    state_var := "state".data
    next_state_var := some "next_state".data
    enum_name := "state_t".data
    states := ["IDLE".data, "REQ".data]
    reset_state := some "IDLE".data
    transitions := [⟨"IDLE".data, "REQ".data, "req".data⟩, ⟨"REQ".data, "IDLE".data, "1".data⟩] }

-- ==================================================================
-- FSM graph builder helpers (fsm_graph_builder.py)
-- ==================================================================

mutual
def collectAlwaysGo : Node → List Node
  | .mk k t cs =>
    (if strContains k "Always".data then [Node.mk k t cs] else []) ++ collectAlwaysGoList cs

def collectAlwaysGoList : List Node → List Node
  | [] => []
  | c :: cs => collectAlwaysGo c ++ collectAlwaysGoList cs
end

/-- `_collect_always_nodes`: every node whose kind CONTAINS "Always",
depth-first. -/
def collectAlwaysNodes (scopeNode : Node) : List Node :=
  collectAlwaysGo scopeNode

/-- `_safe_text`: `(text_of(node) or "") + (collect_identifiers_inline(node) or "")`. -/
def safeText (n : Node) : Str := (n.text.getD []) ++ collectIdentifiersInline n

/-- `_is_clocked_always`: the combined text mentions an edge keyword. -/
def isClockedAlways (n : Node) : Bool :=
  strContains (safeText n) "posedge".data || strContains (safeText n) "negedge".data

/-- `_is_comb_always`. -/
def isCombAlways (n : Node) : Bool :=
  strContains (safeText n) "always_comb".data || strContains (safeText n) "@*".data

/-- `_var_written_in_always`: after removing whitespace, the text contains
`var<=` or `var=`. -/
def varWrittenInAlways (n : Node) (varName : Str) : Bool :=
  if varName = [] then false
  else
    let compact := removeWs (collectIdentifiersInline n)
    strContains compact (varName ++ "<=".data) || strContains compact (varName ++ "=".data)

/-- Written-in-a-clocked-block flag of `_choose_state_and_next`'s scan
(the clocked test is tried first; `elif` gives the combinational flag only
for non-clocked blocks). -/
def writtenClocked (alwaysNodes : List Node) (name : Str) : Bool :=
  alwaysNodes.any (fun a => varWrittenInAlways a name && isClockedAlways a)

/-- Written-in-a-combinational-block flag of `_choose_state_and_next`'s
scan (blocks that also look clocked are claimed by the clocked branch). -/
def writtenComb (alwaysNodes : List Node) (name : Str) : Bool :=
  alwaysNodes.any (fun a =>
    varWrittenInAlways a name && !isClockedAlways a && isCombAlways a)

/-- `score_state_name` in `_choose_state_and_next`. -/
def scoreStateName (name : Str) : Int :=
  let n := toLowerStr name
  (if n = "state".data then (3 : Int) else 0)
  + (if strContains n "state".data then (2 : Int) else 0)
  + (if strContains n "next".data || strContains n "nxt".data
        || strEndsWith n "_d".data || strEndsWith n "_ns".data then (-2 : Int) else 0)

/-- `score_next_name` in `_choose_state_and_next`; `stateVar` is the chosen
primary variable (`if state_var and name == state_var: -3`). -/
def scoreNextName (stateVar : Option Str) (name : Str) : Int :=
  let n := toLowerStr name
  (if strContains n "next".data || strContains n "nxt".data then (3 : Int) else 0)
  + (if strEndsWith n "_d".data || strEndsWith n "_ns".data then (2 : Int) else 0)
  + (if strContains n "state".data then (1 : Int) else 0)
  + (match stateVar with
     | some sv => if sv ≠ [] ∧ name = sv then (-3 : Int) else 0
     | none => 0)

/-- The best-so-far scan of `_choose_state_and_next` (`best_score` starts
at −999; strict improvement keeps the first maximal candidate). -/
def bestScan (f : Str → Int) (l : List Str) : Option Str × Int :=
  l.foldl (fun b n => if f n > b.2 then (some n, f n) else b) (none, -999)

/-- `_choose_state_and_next(scope_node, vars_in_group)`, taking the group's
variable names (each candidate dict is only read through its
`var_name`). -/
def chooseStateAndNext (scopeNode : Node) (names : List Str) : Option Str × Option Str :=
  let alwaysNodes := collectAlwaysNodes scopeNode
  let stateCandidates :=
    let written := names.filter (fun n => writtenClocked alwaysNodes n)
    if written = [] then names else written
  let stateVar := (bestScan scoreStateName stateCandidates).1
  let nextCandidates := names.filter (fun n => writtenComb alwaysNodes n)
  let next := bestScan (scoreNextName stateVar) nextCandidates
  let nextStateVar := if next.2 > -999 then next.1 else none
  (stateVar, nextStateVar)

/-- One step of `_find_first_enum_in_text`'s loop: keep the best
`(index, member)` seen so far, replacing it only on a strictly smaller
first-occurrence index. -/
def ffeStep (text : Str) (best : Option (Nat × Str)) (m : Str) : Option (Nat × Str) :=
  match strFind m text with
  | some idx =>
    match best with
    | some (bidx, _) => if idx < bidx then some (idx, m) else best
    | none => some (idx, m)
  | none => best

/-- `_find_first_enum_in_text`: the member whose first occurrence
(`text.find`) has the smallest index; on equal indices the earlier member
in the list wins (strict improvement). -/
def findFirstEnumInText (enumMembers : List Str) (text : Str) : Option Str :=
  (enumMembers.foldl (ffeStep text) none).map Prod.snd

/-- `_detect_reset_state`: scan the always nodes in order; for the first
clocked one whose text mentions the state variable and whose
whitespace-stripped text contains `state=MEMBER` or `state<=MEMBER` for
some member, return the first such member (member-list order). -/
def detectResetState (alwaysNodes : List Node) (stateVar : Str) (enumMembers : List Str) :
    Option Str :=
  match alwaysNodes with
  | [] => none
  | a :: rest =>
    if isClockedAlways a then
      if strContains (collectIdentifiersInline a) stateVar then
        match enumMembers.find? (fun m =>
          strContains (removeWs (collectIdentifiersInline a)) (stateVar ++ "=".data ++ m)
          || strContains (removeWs (collectIdentifiersInline a)) (stateVar ++ "<=".data ++ m)) with
        | some m => some m
        | none => detectResetState rest stateVar enumMembers
      else detectResetState rest stateVar enumMembers
    else detectResetState rest stateVar enumMembers

/-- `_find_case_nodes_on_state`'s per-node test: a `Case*` node whose
whitespace-stripped text contains `case(var)`, `uniquecase(var)` or
`prioritycase(var)`. -/
def isCaseOnState (stateVar : Str) (n : Node) : Bool :=
  strStartsWith "Case".data n.kind &&
    (let compact := removeWs (collectIdentifiersInline n)
     strContains compact ("case(".data ++ stateVar ++ ")".data)
     || strContains compact ("uniquecase(".data ++ stateVar ++ ")".data)
     || strContains compact ("prioritycase(".data ++ stateVar ++ ")".data))

mutual
def findCaseGo (sv : Str) : Node → List Node
  | .mk k t cs =>
    (if strStartsWith "Case".data k && isCaseOnState sv (Node.mk k t cs)
     then [Node.mk k t cs] else []) ++ findCaseGoList sv cs

def findCaseGoList (sv : Str) : List Node → List Node
  | [] => []
  | c :: cs => findCaseGo sv c ++ findCaseGoList sv cs
end

/-- `_find_case_nodes_on_state`: depth-first collection (children are
searched below matching nodes too). -/
def findCaseNodesOnState (scopeNode : Node) (stateVar : Str) : List Node :=
  findCaseGo stateVar scopeNode

mutual
def collectCaseItemsGo : Node → List Node
  | .mk k t cs =>
    if strContains k "CaseItem".data then [Node.mk k t cs]
    else collectCaseItemsGoList cs

def collectCaseItemsGoList : List Node → List Node
  | [] => []
  | c :: cs => collectCaseItemsGo c ++ collectCaseItemsGoList cs
end

/-- `dfs_items` in `_build_transitions_from_cases`: collect `*CaseItem*`
nodes, NOT descending below a collected item. -/
def collectCaseItems (caseNode : Node) : List Node :=
  collectCaseItemsGo caseNode

-- The two regular-expression scanners of `_find_assignments_with_conditions`.

/-- The `(.*?)\)` scan: characters up to the first `)` (none of them a
newline, which `.` does not match); `clen` counts the condition characters
plus the closing parenthesis. -/
def scanToParen : Str → Option (Str × Nat)
  | [] => none
  | c :: t =>
    if c = ')' then some ([], 1)
    else if c = '\n' then none
    else (scanToParen t).map (fun p => (c :: p.1, p.2 + 1))

/-- Match `if\s*\((.*?)\)` anchored at the head of `s`: literal `if`, then
whitespace (the maximal munch is the only viable one, `(` not being
whitespace), then `(`, then the lazy `(.*?)\)` — the shortest run of
non-newline characters up to a `)`.  Returns the captured condition and
the total matched length. -/
def ifMatchHere (s : Str) : Option (Str × Nat) :=
  match s with
  | 'i' :: 'f' :: r1 =>
    let k := countLeadingWs r1
    match r1.drop k with
    | '(' :: r2 =>
      match scanToParen r2 with
      | some (cond, clen) => some (cond, 2 + k + 1 + clen)
      | none => none
    | _ => none
  | _ => none

/-- `re.finditer` for the `if`-pattern: try each position left to right,
resuming after the end of a match; records the absolute start position and
the captured condition. -/
def findIfMatches (pos : Nat) : Str → List (Nat × Str)
  | [] => []
  | c :: t =>
    match ifMatchHere (c :: t) with
    | some (cond, len) => (pos, cond) :: findIfMatches (pos + len) (t.drop (len - 1))
    | none => findIfMatches (pos + 1) t
termination_by s => s.length
decreasing_by
  all_goals simp
  omega

/-- Match `{lhs}\s*<?=\s*([A-Za-z_]\w*)` anchored at the head of `s`
(assignment-ish pattern of `_find_assignments_with_conditions`): the
literal left-hand name, optional whitespace, an optional `<`, `=`,
optional whitespace, then a captured identifier.  All munches are forced,
so the match is deterministic.  Returns the captured right-hand identifier
and the total matched length. -/
def assignMatchHere (lhs : Str) (s : Str) : Option (Str × Nat) :=
  if strStartsWith lhs s then
    let r1 := (s.drop lhs.length)
    let k1 := countLeadingWs r1
    let r2 := r1.drop k1
    let (lt, r3) := match r2 with
      | '<' :: r => (1, r)
      | r => (0, r)
    match r3 with
    | '=' :: r4 =>
      let k2 := countLeadingWs r4
      let r5 := r4.drop k2
      match r5 with
      | c :: _ =>
        if isPyIdentStart c then
          let w := r5.takeWhile isPyWord
          some (w, lhs.length + k1 + lt + 1 + k2 + w.length)
        else none
      | [] => none
    | _ => none
  else none

/-- `re.finditer` for the assignment pattern, with absolute start
positions. -/
def findAssignMatches (lhs : Str) (pos : Nat) : Str → List (Nat × Str)
  | [] => []
  | c :: t =>
    match assignMatchHere lhs (c :: t) with
    | some (rhs, len) =>
      (pos, rhs) :: (if len - 1 ≤ t.length then findAssignMatches lhs (pos + len) (t.drop (len - 1)) else [])
    | none => findAssignMatches lhs (pos + 1) t
termination_by s => s.length
decreasing_by
  all_goals simp
  omega

/-- The guard attached to an assignment found at `assignStart`: the
condition of the LAST `if`-match starting before it, stripped, or the
unconditional marker `"1"`. -/
def condOfNearestIf (ifMatches : List (Nat × Str)) (assignStart : Nat) : Str :=
  match (ifMatches.filter (fun m => m.1 < assignStart)).getLast? with
  | some m => pyStrip m.2
  | none => "1".data

/-- `_find_assignments_with_conditions(text, lhs_name, enum_members)`:
all `(assigned_member, cond)` pairs, deduplicated keeping first
occurrences. -/
def findAssignmentsWithConditions (text : Str) (lhsName : Str) (enumMembers : List Str) :
    List (Str × Str) :=
  let ifMs := findIfMatches 0 text
  let asMs := findAssignMatches lhsName 0 text
  uniqKeepFirst (asMs.filterMap (fun am =>
    if am.2 ∈ enumMembers then some (am.2, condOfNearestIf ifMs am.1) else none))

/-- The FSM transition record produced by the builder. -/
structure Transition where
  frm : Str
  dst : Str
  cond : Str
deriving DecidableEq

/-- The per-`CaseItem` body of `_build_transitions_from_cases`' inner loop:
empty text or no recognized member yields no edges; otherwise one edge per
found assignment, all with the branch's `from` state. -/
def transitionsOfCaseItem (enumMembers : List Str) (lhsName : Str) (item : Node) :
    List Transition :=
  let itemText := collectIdentifiersInline item
  if itemText = [] then []
  else match findFirstEnumInText enumMembers itemText with
    | none => []
    | some fromState =>
      (findAssignmentsWithConditions itemText lhsName enumMembers).map
        (fun p => ⟨fromState, p.1, p.2⟩)

/-- `_build_transitions_from_cases`: the write target is the next-state
variable when truthy, else the state variable; an empty target produces no
edges. -/
def buildTransitionsFromCases (caseNodes : List Node) (stateVar : Str)
    (nextStateVar : Option Str) (enumMembers : List Str) : List Transition :=
  let lhsName := match nextStateVar with
    | some n => if n = [] then stateVar else n
    | none => stateVar
  if lhsName = [] then []
  else (caseNodes.map (fun cn =>
    ((collectCaseItems cn).map (transitionsOfCaseItem enumMembers lhsName)).flatten)).flatten

-- ==================================================================
-- Specification-side definitions for classifier / reset / branch claims
-- ==================================================================

/-- Spec-side primary-candidate set of claim C5: the variables written in
some clocked block, or the whole group when none is. -/
def primaryCandidates (alwaysNodes : List Node) (names : List Str) : List Str :=
  let written := names.filter (fun n => writtenClocked alwaysNodes n)
  if written = [] then names else written

/-- Spec-side test of claim C7: one member's reset-assignment pattern
(either assignment spelling) inside a block's whitespace-stripped text. -/
def blockResetPattern (sv : Str) (a : Node) (m : Str) : Bool :=
  strContains (removeWs (collectIdentifiersInline a)) (sv ++ "=".data ++ m)
  || strContains (removeWs (collectIdentifiersInline a)) (sv ++ "<=".data ++ m)

/-- Spec-side test of claim C7: the block's text mentions the state
variable and some member matches the assignment pattern. -/
def blockResetMatch (sv : Str) (members : List Str) (a : Node) : Bool :=
  strContains (collectIdentifiersInline a) sv && members.any (fun m => blockResetPattern sv a m)

/-- Spec-side reset detection of claim C7: the first clocked matching block
supplies the first matching member. -/
def detectResetStateSpec (alwaysNodes : List Node) (sv : Str) (members : List Str) :
    Option Str :=
  (alwaysNodes.find? (fun a => isClockedAlways a && blockResetMatch sv members a)).bind
    (fun a => members.find? (fun m => blockResetPattern sv a m))

/-- Scope fixture for the classifier claims: a module with one clocked and
one combinational block, both writing the single variable `state`. -/
def c10ScopeNode : Node :=
  .mk "ModuleDeclaration".data none
    [ .mk "Identifier".data (some "m".data) [],
      .mk "AlwaysConstruct".data (some "always_ff@(posedgeclk)state<=IDLE;".data) [],
      .mk "AlwaysConstruct".data (some "always_combstate=IDLE;".data) [] ]

/-- Case-item fixture for the branch-extraction witness. -/
def c4ItemNode : Node :=
  .mk "StandardCaseItem".data (some "IDLE:if(req)next_state=REQ;".data) []

/-- Clocked always-block fixture for the reset-detection witness. -/
def c7ClockedNode : Node :=
  .mk "AlwaysConstruct".data
    (some "always_ff@(posedgeclk)beginif(rst)state<=IDLE;elsestate<=next_state;end".data) []

-- ==================================================================
-- Enum resolver (FSM_core/FindeENUM.py)
-- ==================================================================

/-- The name of one `Enumerator` node: `first_identifier_text(en) or
text_of(en)`, kept only when truthy. -/
def enumeratorName (en : Node) : Option Str :=
  let nm := match firstIdentifierText en with
    | some t => if t = [] then en.text else some t
    | none => en.text
  match nm with
  | some t => if t = [] then none else some t
  | none => none

/-- Split at the first occurrence of `c`: `(before, after)`. -/
def splitFirst (c : Char) : Str → Option (Str × Str)
  | [] => none
  | x :: t =>
    if x = c then some ([], t)
    else (splitFirst c t).map (fun p => (x :: p.1, p.2))

/-- Python `s.rsplit(c, 1)[0]`: everything before the LAST occurrence of
`c`, or the whole string when absent. -/
def beforeLast (c : Char) (s : Str) : Str :=
  match splitFirst c s.reverse with
  | some p => p.2.reverse
  | none => s

/-- Python `s.split(c)` (keeping empty parts). -/
def splitOnCharGo (c : Char) (acc : Str) : Str → List Str
  | [] => [acc.reverse]
  | x :: t =>
    if x = c then acc.reverse :: splitOnCharGo c [] t
    else splitOnCharGo c (x :: acc) t

def splitOnChar (c : Char) (s : Str) : List Str := splitOnCharGo c [] s

/-- The fallback member extraction of `find_enum_members`: the comma-split
of the text between the first `{` and the last `}`, each part cut before
`=` and stripped. -/
def enumMembersFromBraceText (brace : Str) : List Str :=
  if strContains brace "\x7b".data && strContains brace "\x7d".data then
    let inner := match splitFirst '\x7b' brace with
      | some p => beforeLast '\x7d' p.2
      | none => []
    ((splitOnChar ',' (inner.map (fun c => if c = '\n' then ' ' else c))).map pyStrip).filterMap
      (fun p =>
        if p = [] then none
        else
          let namePart := pyStrip (p.takeWhile (fun c => c ≠ '='))
          if namePart = [] then none else some namePart)
  else []

/-- `find_enum_members(enum_node)`: enumerator names when `Enumerator`
nodes exist, the brace-text fallback otherwise. -/
def findEnumMembers (enumNode : Node) : List Str :=
  let enumeratorNodes := findAllN "Enumerator".data enumNode
  if !enumeratorNodes.isEmpty then enumeratorNodes.filterMap enumeratorName
  else
    enumMembersFromBraceText
      (match enumNode.text with
       | some t => if t = [] then collectIdentifiersInline enumNode else t
       | none => collectIdentifiersInline enumNode)

/-- The base-type keyword set of `build_enum_index`. -/
def keywordLike : List Str :=
  ["enum", "logic", "reg", "wire", "bit", "byte", "shortint", "int", "longint",
   "signed", "unsigned", "integer", "time", "real", "realtime"].map String.data

/-- The keyword set of `extract_var_names_from_declaration` (additionally
contains `typedef`). -/
def keywordLikeVar : List Str := "typedef".data :: keywordLike

/-- One entry of `enum_info_by_id`. -/
structure EnumInfoV where
  node : Node
  name : Str
  members : List Str

mutual
/-- `dfs_collect` of `build_enum_index`: every `EnumType` node with its
tree address and its immediate declaring parent (`stack[-2]`). -/
def collectEnumsGo (p : NodeId) (par : Option (NodeId × Node)) :
    Node → List (NodeId × Node × Option (NodeId × Node))
  | .mk k t cs =>
    (if k = "EnumType".data then [(p, Node.mk k t cs, par)] else [])
      ++ collectEnumsGoList p (Node.mk k t cs) 0 cs

def collectEnumsGoList (p : NodeId) (par : Node) :
    Nat → List Node → List (NodeId × Node × Option (NodeId × Node))
  | _, [] => []
  | i, c :: cs =>
    collectEnumsGo (p ++ [i]) (some (p, par)) c ++ collectEnumsGoList p par (i + 1) cs
end

def collectEnumsWithParents (root : Node) : List (NodeId × Node × Option (NodeId × Node)) :=
  collectEnumsGo [] none root

/-- The typedef-name search of `build_enum_index`: the first identifier of
the parent that is not inside the enum's own subtree, not empty, not a
base-type keyword and not a member name. -/
def typedefNameOf (parPath : NodeId) (parent : Node) (enumPath : NodeId) (en : Node)
    (members : List Str) : Option Str :=
  let enumIds := (findAllP "Identifier".data enumPath en).map Prod.fst
  ((findAllP "Identifier".data parPath parent).filterMap (fun pr =>
    if pr.1 ∈ enumIds then none
    else match pr.2.text with
      | some nm =>
        if nm = [] then none
        else if nm ∈ keywordLike ∨ nm ∈ members then none else some nm
      | none => none)).head?

/-- The inline-alias collection of `build_enum_index` (same filtering, all
hits). -/
def inlineAliasesOf (parPath : NodeId) (parent : Node) (enumPath : NodeId) (en : Node)
    (members : List Str) : List Str :=
  let enumIds := (findAllP "Identifier".data enumPath en).map Prod.fst
  (findAllP "Identifier".data parPath parent).filterMap (fun pr =>
    if pr.1 ∈ enumIds then none
    else match pr.2.text with
      | some nm =>
        if nm = [] then none
        else if nm ∈ keywordLike ∨ nm ∈ members then none else some nm
      | none => none)

/-- One iteration of `build_enum_index`'s main loop over collected enum
nodes. -/
def buildEnumIndexStep (acc : List (NodeId × EnumInfoV) × List (Str × NodeId))
    (item : NodeId × Node × Option (NodeId × Node)) :
    List (NodeId × EnumInfoV) × List (Str × NodeId) :=
  let enumPath := item.1
  let en := item.2.1
  let members := findEnumMembers en
  match item.2.2 with
  | none => (dictInsert acc.1 enumPath ⟨en, [], members⟩, acc.2)
  | some (parPath, parent) =>
    let ptext := collectIdentifiersInline parent
    if strContains ptext "typedef".data && strContains ptext "enum".data then
      match typedefNameOf parPath parent enumPath en members with
      | some nm =>
        (dictInsert acc.1 enumPath ⟨en, nm, members⟩, dictInsert acc.2 nm enumPath)
      | none => (dictInsert acc.1 enumPath ⟨en, [], members⟩, acc.2)
    else if strContains ptext "enum".data && !strContains ptext "typedef".data then
      (dictInsert acc.1 enumPath ⟨en, [], members⟩,
       (inlineAliasesOf parPath parent enumPath en members).foldl
         (fun tm a => dictInsert tm a enumPath) acc.2)
    else (dictInsert acc.1 enumPath ⟨en, [], members⟩, acc.2)

/-- `build_enum_index` before anonymous-name generation. -/
def buildEnumIndexPre (root : Node) : List (NodeId × EnumInfoV) × List (Str × NodeId) :=
  (collectEnumsWithParents root).foldl buildEnumIndexStep ([], [])

/-- A synthesized anonymous-enum name: first member name (or the counter)
plus the running counter. -/
def mkAnonName (c : Nat) (members : List Str) : Str :=
  "anonymous_enum_".data
    ++ (match members with | [] => natDigits c | m :: _ => m)
    ++ "_".data ++ natDigits c

/-- The anonymous-naming loop at the end of `build_enum_index`: the
pass-scoped counter increments once per anonymous enum, in index order. -/
def assignAnonNames : Nat → List (NodeId × EnumInfoV) → List (NodeId × EnumInfoV)
  | _, [] => []
  | c, (k, i) :: rest =>
    if i.name = [] then
      (k, ⟨i.node, mkAnonName (c + 1) i.members, i.members⟩) :: assignAnonNames (c + 1) rest
    else (k, i) :: assignAnonNames c rest

/-- The list of names the anonymous-naming loop synthesizes, in order. -/
def synthNamesList : Nat → List (NodeId × EnumInfoV) → List Str
  | _, [] => []
  | c, (_, i) :: rest =>
    if i.name = [] then mkAnonName (c + 1) i.members :: synthNamesList (c + 1) rest
    else synthNamesList c rest

/-- `build_enum_index(root)`. -/
def buildEnumIndex (root : Node) : List (NodeId × EnumInfoV) × List (Str × NodeId) :=
  let pre := buildEnumIndexPre root
  (assignAnonNames 0 pre.1, pre.2)

/-- `detect_enum_for_declaration`.  In the alias branch, the source indexes
`enum_info_by_id[enum_id]` directly; the key is always present because
`typedef_to_enum` values are index keys by construction, so the impossible
miss is modelled as "no enum". -/
def detectEnumForDeclaration (declPath : NodeId) (decl : Node)
    (idx : List (NodeId × EnumInfoV)) (tmap : List (Str × NodeId)) :
    Option (NodeId × Str × List Str) :=
  let fullText := collectIdentifiersInline decl
  if strContains fullText "enum".data then
    match (findAllP "EnumType".data declPath decl).head? with
    | some (ep, en) =>
      match dictLookup idx ep with
      | some info => some (ep, info.name, info.members)
      | none => some (ep, [], findEnumMembers en)
    | none => none
  else
    match tmap.find? (fun td => td.1 ≠ [] && strContains fullText td.1) with
    | some (_, eid) =>
      match dictLookup idx eid with
      | some info => some (eid, info.name, info.members)
      | none => none
    | none => none

/-- `extract_var_names_from_declaration`. -/
def extractVarNamesFromDeclaration (decl : Node) (enumName : Str) (members : List Str) :
    List Str :=
  let allIds := (findAllN "Identifier".data decl).filterMap (fun n =>
    match n.text with
    | some t => if t = [] then none else some t
    | none => none)
  uniqKeepFirst (allIds.filter (fun name =>
    !(name ∈ members || name ∈ keywordLikeVar || (enumName ≠ [] && name = enumName))))

/-- One result row of `detect_enum_variables_from_cst` (the position field
is not exposed by the abstract tree interface and is omitted; see the
dedup note at `dedupByKey`). -/
structure EnumVarInfo where
  var_name : Str
  enum_name : Str
  enum_members : List Str
  scope : Str
deriving DecidableEq

/-- The scope-defining node kinds and their labels. -/
def scopeKinds : List (Str × Str) :=
  [("ModuleDeclaration", "module"), ("InterfaceDeclaration", "interface"),
   ("PackageDeclaration", "package"), ("ClassDeclaration", "class"),
   ("ProgramDeclaration", "program"), ("CheckerDeclaration", "checker"),
   ("ConfigDeclaration", "config")].map (fun p => (p.1.data, p.2.data))

/-- The scope label `f"{prefix} {nm}".strip()`. -/
def scopeLabel (pfx : Str) (n : Node) : Str :=
  pyStrip (pfx ++ " ".data ++ ((firstIdentifierText n).getD []))

mutual
/-- The main `dfs` of `detect_enum_variables_from_cst`: scope nodes push a
label and recurse; `*Declaration` nodes are matched against the enum index
and contribute one row per declared variable; all other nodes just
recurse. -/
def detectDfs (idx : List (NodeId × EnumInfoV)) (tmap : List (Str × NodeId))
    (p : NodeId) (scopeStack : List Str) : Node → List EnumVarInfo
  | .mk k t cs =>
    match dictLookup scopeKinds k with
    | some pfx =>
      detectDfsList idx tmap p (scopeLabel pfx (Node.mk k t cs) :: scopeStack) 0 cs
    | none =>
      (if strEndsWith k "Declaration".data then
        match detectEnumForDeclaration p (Node.mk k t cs) idx tmap with
        | some (_, ename, members) =>
          (extractVarNamesFromDeclaration (Node.mk k t cs) ename members).map (fun vn =>
            { var_name := vn, enum_name := ename, enum_members := members,
              scope := scopeStack.headD [] })
        | none => []
      else [])
      ++ detectDfsList idx tmap p scopeStack 0 cs

def detectDfsList (idx : List (NodeId × EnumInfoV)) (tmap : List (Str × NodeId))
    (p : NodeId) (scopeStack : List Str) : Nat → List Node → List EnumVarInfo
  | _, [] => []
  | i, c :: cs =>
    detectDfs idx tmap (p ++ [i]) scopeStack c
      ++ detectDfsList idx tmap p scopeStack (i + 1) cs
end

/-- The final global dedup of `detect_enum_variables_from_cst`, keyed by
`(var_name, enum_name, scope, line, column)`; the abstract tree interface
provides no positions (`getattr` defaults), so the key reduces to the
name triple. -/
def dedupByKeyGo (seen : List (Str × Str × Str)) : List EnumVarInfo → List EnumVarInfo
  | [] => []
  | r :: rest =>
    if (r.var_name, r.enum_name, r.scope) ∈ seen then dedupByKeyGo seen rest
    else r :: dedupByKeyGo ((r.var_name, r.enum_name, r.scope) :: seen) rest

def dedupByKey (rs : List EnumVarInfo) : List EnumVarInfo := dedupByKeyGo [] rs

/-- `detect_enum_variables_from_cst(tree)`. -/
def detectEnumVariablesFromCst (root : Node) : List EnumVarInfo :=
  let pre := buildEnumIndex root
  if pre.1.isEmpty then []
  else dedupByKey (detectDfs pre.1 pre.2 [] [] root)

-- ==================================================================
-- FSM candidate filter (fsm_enum_candidates_cst.py)
-- ==================================================================

mutual
/-- The `dfs_case` of `is_used_in_case`: every node whose kind starts with
`Case`. -/
def collectCaseKindGo : Node → List Node
  | .mk k t cs =>
    (if strStartsWith "Case".data k then [Node.mk k t cs] else []) ++ collectCaseKindGoList cs

def collectCaseKindGoList : List Node → List Node
  | [] => []
  | c :: cs => collectCaseKindGo c ++ collectCaseKindGoList cs
end

/-- `is_used_in_case(root, var_name)`. -/
def isUsedInCase (root : Node) (varName : Str) : Bool :=
  varName ≠ [] &&
    (collectCaseKindGo root).any (fun nd => strContains (collectIdentifiersInline nd) varName)

/-- `is_assigned_in_clocked_always(root, var_name)`. -/
def isAssignedInClockedAlways (root : Node) (varName : Str) : Bool :=
  varName ≠ [] &&
    ((findAllN "AlwaysConstruct".data root) ++ (findAllN "AlwaysStatement".data root)).any
      (fun nd =>
        strContains (collectIdentifiersInline nd) varName
          && (strContains (collectIdentifiersInline nd) "posedge".data
              || strContains (collectIdentifiersInline nd) "negedge".data))

/-- The `fsm_reason` record attached to each candidate. -/
structure FsmReason where
  name_based : Bool
  used_in_case : Bool
  assigned_in_clocked_always : Bool

/-- One FSM candidate: the enum-variable row plus its reason. -/
structure FsmCandidate where
  info : EnumVarInfo
  fsm_reason : FsmReason

/-- `detect_fsm_enum_candidates_from_cst(tree)`. -/
def detectFsmEnumCandidatesFromCst (root : Node) : List FsmCandidate :=
  (detectEnumVariablesFromCst root).filterMap (fun item =>
    let nameBased := strContains (toLowerStr item.var_name) "state".data
      || strContains (toLowerStr item.enum_name) "state".data
    let usedInCase := isUsedInCase root item.var_name
    let clocked := isAssignedInClockedAlways root item.var_name
    if nameBased || usedInCase || clocked then
      some ⟨item, ⟨nameBased, usedInCase, clocked⟩⟩
    else none)

-- ==================================================================
-- build_fsm_graphs_from_cst (fsm_graph_builder.py)
-- ==================================================================

mutual
/-- `_collect_scope_nodes`: `(label, node)` pairs in depth-first order;
the later of two identically-labelled scopes wins on dict assignment. -/
def scopePairsGo : Node → List (Str × Node)
  | .mk k t cs =>
    (match dictLookup scopeKinds k with
     | some pfx => [(scopeLabel pfx (Node.mk k t cs), Node.mk k t cs)]
     | none => []) ++ scopePairsGoList cs

def scopePairsGoList : List Node → List (Str × Node)
  | [] => []
  | c :: cs => scopePairsGo c ++ scopePairsGoList cs
end

/-- The produced FSM graph record (`metadata` flattened into the two
counters). -/
structure FSMGraph where
  scope : Str
  state_var : Str
  next_state_var : Option Str
  enum_name : Str
  states : List Str
  reset_state : Option Str
  transitions : List Transition
  num_states : Nat
  num_transitions : Nat
deriving DecidableEq

/-- The loop body of `build_fsm_graphs_from_cst` for one
`(scope, enum_name)` group (`continue` = `none`). -/
def buildOneGraph (scopeNodes : List (Str × Node))
    (enumIndex : List ((Str × Str) × EnumVarInfo))
    (kv : (Str × Str) × List FsmCandidate) : Option FSMGraph :=
  match dictLookup scopeNodes kv.1.1 with
  | none => none
  | some scopeNode =>
    let enumMembers :=
      ((firstSome (fun v => dictLookup enumIndex (kv.1.1, v.info.var_name)) kv.2).map
        (fun ev => ev.enum_members)).getD []
    if enumMembers = [] then none
    else
      match chooseStateAndNext scopeNode (kv.2.map (fun v => v.info.var_name)) with
      | (none, _) => none
      | (some sv, nsv) =>
        if sv = [] then none
        else
          let alwaysNodes := collectAlwaysNodes scopeNode
          let caseNodes := findCaseNodesOnState scopeNode sv
          let transitions := buildTransitionsFromCases caseNodes sv nsv enumMembers
          let resetState := detectResetState alwaysNodes sv enumMembers
          let uniqueTransitions := uniqKeepFirst transitions
          some { scope := kv.1.1, state_var := sv, next_state_var := nsv,
                 enum_name := kv.1.2, states := enumMembers,
                 reset_state := resetState, transitions := uniqueTransitions,
                 num_states := enumMembers.length,
                 num_transitions := uniqueTransitions.length }

/-- `build_fsm_graphs_from_cst(tree)`. -/
def buildFsmGraphsFromCst (root : Node) : List FSMGraph :=
  let fsmCandidates := detectFsmEnumCandidatesFromCst root
  let allEnumVars := detectEnumVariablesFromCst root
  let enumIndex := allEnumVars.foldl
    (fun d ev => dictInsert d (ev.scope, ev.var_name) ev) []
  let groups := fsmCandidates.foldl
    (fun g c =>
      if c.info.enum_name = [] then g
      else groupInsert g (c.info.scope, c.info.enum_name) c) []
  let scopeNodes := (scopePairsGo root).foldl (fun d p => dictInsert d p.1 p.2) []
  groups.filterMap (buildOneGraph scopeNodes enumIndex)

-- ==================================================================
-- Pipeline fixtures for the end-to-end claims
-- ==================================================================

/-- A leaf node carrying a kind and a text. -/
def leafN (k t : Str) : Node := .mk k (some t) []

/-- A small module tree driving the whole extraction pipeline: a typedef'd
two-member enum, one variable declaration, one clocked always-block, no
case statement. -/
def c2Tree : Node :=
  .mk "CompilationUnit".data none
    [.mk "ModuleDeclaration".data none
      [leafN "Identifier".data "m".data,
       .mk "TypedefDeclaration".data none
         [leafN "Keyword".data "typedef".data,
          .mk "EnumType".data none
            [leafN "Keyword".data "enum".data,
             .mk "Enumerator".data none [leafN "Identifier".data "IDLE".data],
             .mk "Enumerator".data none [leafN "Identifier".data "REQ".data]],
          leafN "Identifier".data "state_t".data],
       .mk "DataDeclaration".data none
         [leafN "Identifier".data "state_t".data, leafN "Identifier".data "state".data],
       .mk "AlwaysConstruct".data
         (some "always_ff@(posedgeclk)if(rst)state<=IDLE;".data) []]]

/-- The single graph the pipeline extracts from `c2Tree`. -/
def c2Graph : FSMGraph :=
  { scope := "module m".data, state_var := "state".data, next_state_var := none,
    enum_name := "state_t".data, states := ["IDLE".data, "REQ".data],
    reset_state := some "IDLE".data, transitions := [], num_states := 2,
    num_transitions := 0 }

/-- A tree with no enum declaration at all. -/
def c9Tree : Node :=
  .mk "CompilationUnit".data none
    [.mk "ModuleDeclaration".data none
      [leafN "Identifier".data "empty".data,
       .mk "AlwaysConstruct".data (some "always_ff@(posedgeclk)q<=d;".data) []]]

-- END OF DEFINITIONS (theorems follow)

-- ==================================================================
-- Lemmas about validation and the combinational block
-- ==================================================================

theorem uniqKeepFirstGo_sublist [DecidableEq α] (seen : List α) (l : List α) :
    (uniqKeepFirstGo seen l).Sublist l := by
  induction l generalizing seen with
  | nil => simp [uniqKeepFirstGo]
  | cons y ys ih =>
    simp only [uniqKeepFirstGo]
    split
    · exact (ih seen).cons y
    · exact (ih (y :: seen)).cons₂ y

theorem uniqKeepFirstGo_eq_self [DecidableEq α] (seen : List α) (l : List α)
    (hnd : l.Nodup) (hdisj : ∀ x ∈ l, x ∉ seen) : uniqKeepFirstGo seen l = l := by
  induction l generalizing seen with
  | nil => simp [uniqKeepFirstGo]
  | cons y ys ih =>
    simp only [uniqKeepFirstGo]
    rw [if_neg (hdisj y (List.mem_cons_self _ _))]
    congr 1
    refine ih _ (List.nodup_cons.1 hnd).2 ?_
    intro x hx
    simp only [List.mem_cons, not_or]
    exact ⟨fun he => (List.nodup_cons.1 hnd).1 (he ▸ hx), hdisj x (List.mem_cons_of_mem _ hx)⟩

/-- `len(states) == len(set(states))` is exactly no-duplicates. -/
theorem uniqKeepFirst_length_iff [DecidableEq α] (l : List α) :
    (uniqKeepFirst l).length = l.length ↔ l.Nodup := by
  constructor
  · intro h
    have := (uniqKeepFirstGo_sublist [] l).eq_of_length h
    rw [← this]
    exact uniqKeepFirst_nodup l
  · intro h
    rw [uniqKeepFirst, uniqKeepFirstGo_eq_self [] l h (by simp)]

theorem validateTransGo_ok_iff (states : List Str) (ts : List TransIn) :
    validateTransGo states ts = .ok () ↔ ∀ t ∈ ts, t.frm ∈ states ∧ t.dst ∈ states := by
  induction ts with
  | nil => simp [validateTransGo]
  | cons t ts ih =>
    simp only [validateTransGo]
    by_cases h1 : t.frm ∈ states
    · by_cases h2 : t.dst ∈ states
      · simp [h1, h2, ih]
      · simp [h1, h2]
    · simp [h1]

theorem validateTransGo_error (states : List Str) (ts : List TransIn) (e : Str)
    (h : validateTransGo states ts = .error e) :
    (∃ t ∈ ts, t.frm ∉ states ∧ e = "Transition from unknown state: ".data ++ t.frm) ∨
    (∃ t ∈ ts, t.dst ∉ states ∧ e = "Transition to unknown state: ".data ++ t.dst) := by
  induction ts with
  | nil => simp [validateTransGo] at h
  | cons t ts ih =>
    simp only [validateTransGo] at h
    by_cases h1 : t.frm ∈ states
    · by_cases h2 : t.dst ∈ states
      · rw [if_pos h1, if_pos h2] at h
        rcases ih h with ⟨u, hu, hn, he⟩ | ⟨u, hu, hn, he⟩
        · exact Or.inl ⟨u, List.mem_cons_of_mem _ hu, hn, he⟩
        · exact Or.inr ⟨u, List.mem_cons_of_mem _ hu, hn, he⟩
      · rw [if_pos h1, if_neg h2] at h
        exact Or.inr ⟨t, List.mem_cons_self _ _, h2, (Except.error.inj h).symm⟩
    · rw [if_neg h1] at h
      exact Or.inl ⟨t, List.mem_cons_self _ _, h1, (Except.error.inj h).symm⟩

theorem validateGraph_ok_iff (g : FSMGraphIn) :
    validateGraph g = .ok () ↔
      (g.states.Nodup ∧ (∀ t ∈ g.transitions, t.frm ∈ g.states ∧ t.dst ∈ g.states) ∧
        (∀ r, g.reset_state = some r → r ≠ [] → r ∈ g.states)) := by
  unfold validateGraph
  by_cases hd : g.states.length ≠ (uniqKeepFirst g.states).length
  · rw [if_pos hd]
    have : ¬ g.states.Nodup := by
      rw [← uniqKeepFirst_length_iff]
      omega
    simp [this]
  · rw [if_neg hd]
    push_neg at hd
    have hnd : g.states.Nodup := by rw [← uniqKeepFirst_length_iff]; omega
    rcases hv : validateTransGo g.states g.transitions with e | u
    · constructor
      · intro h; simp at h
      · intro ⟨_, h2, _⟩
        rw [(validateTransGo_ok_iff _ _).2 h2] at hv
        simp at hv
    · obtain ⟨⟩ := u
      have h2 := (validateTransGo_ok_iff g.states g.transitions).1 hv
      dsimp only
      cases hr : g.reset_state with
      | none =>
        dsimp only
        constructor
        · intro _
          refine ⟨hnd, h2, ?_⟩
          intro r hr'
          cases hr'
        · intro _; rfl
      | some r =>
        dsimp only
        by_cases hrr : r ≠ [] ∧ r ∉ g.states
        · rw [if_pos hrr]
          constructor
          · intro h; simp at h
          · intro ⟨_, _, h3⟩
            exact absurd (h3 r rfl hrr.1) hrr.2
        · rw [if_neg hrr]
          constructor
          · intro _
            refine ⟨hnd, h2, ?_⟩
            intro r' hr' hne
            obtain rfl := Option.some.inj hr'
            by_contra hnm
            exact hrr ⟨hne, hnm⟩
          · intro _; rfl

theorem generateCodeFromGraph_isOk_iff (orig : Str) (g : FSMGraphIn) (mn : Option Str) :
    (generateCodeFromGraph orig g mn).isOk = true ↔ validateGraph g = .ok () := by
  unfold generateCodeFromGraph
  rcases h : validateGraph g with e | u
  · simp [Except.isOk, Except.toBool]
  · obtain ⟨⟩ := u
    simp [Except.isOk, Except.toBool]

theorem dictLookup_groupInsert [DecidableEq κ] (d : List (κ × List α)) (k k' : κ) (x : α) :
    dictLookup (groupInsert d k x) k' =
      if k' = k then some ((dictLookup d k).getD [] ++ [x]) else dictLookup d k' := by
  induction d with
  | nil =>
    by_cases h : k' = k
    · subst h; simp [groupInsert, dictLookup]
    · simp [groupInsert, dictLookup, h, Ne.symm h]
  | cons p rest ih =>
    obtain ⟨k₀, xs⟩ := p
    by_cases h0 : k₀ = k
    · subst h0
      by_cases h : k' = k₀
      · subst h; simp [groupInsert, dictLookup]
      · simp [groupInsert, dictLookup, h, Ne.symm h]
    · by_cases h : k₀ = k'
      · subst h
        simp [groupInsert, dictLookup, h0]
      · simp [groupInsert, dictLookup, h0, h, ih]

theorem transitionsByState_foldl (ts : List TransIn) (d : List (Str × List TransIn)) (s : Str) :
    (dictLookup (ts.foldl (fun d t => groupInsert d t.frm t) d) s).getD [] =
      (dictLookup d s).getD [] ++ ts.filter (fun t => t.frm = s) := by
  induction ts generalizing d with
  | nil => simp
  | cons t ts ih =>
    simp only [List.foldl_cons, ih, List.filter_cons]
    rw [dictLookup_groupInsert]
    by_cases h : s = t.frm
    · subst h
      simp
    · rw [if_neg h]
      have : (decide (t.frm = s)) = false := by
        rw [decide_eq_false_iff_not]
        exact fun hh => h hh.symm
      simp [this]

/-- Looking a state up in the grouping dict gives exactly the sub-list of
transitions leaving it, in edge-list order. -/
theorem transitionsByState_lookup (ts : List TransIn) (s : Str) :
    (dictLookup (transitionsByState ts) s).getD [] = ts.filter (fun t => t.frm = s) := by
  unfold transitionsByState
  rw [transitionsByState_foldl]
  simp [dictLookup]

theorem specEdgeLines_eq_combEdgeLines (target : Str) (i : Nat) (t : TransIn) :
    combEdgeLines target i t = specEdgeLines target i t := by
  unfold combEdgeLines specEdgeLines
  split
  · rfl
  · split <;> rfl

theorem specBranchLines_eq (target fromState : Str) (l : List TransIn) :
    combBranchLines target fromState l = specBranchLines target fromState l := by
  unfold combBranchLines specBranchLines
  congr 2
  split
  · rfl
  · congr 1
    exact List.map_congr_left (fun p _ => specEdgeLines_eq_combEdgeLines target p.1 p.2)

-- ==================================================================
-- Claim C1 (corrected)
-- ==================================================================

/-- C1, counterexample to the claim as stated: a graph whose `reset_state`
is set (present) but equal to the empty string, which is not in `states`.
The claim requires `generate_code_from_graph` to raise; the source's
truthiness test `if reset_state and reset_state not in states` skips the
check for a falsy value, and generation succeeds. -/
theorem c1_generate_validation_counterexample :
    c1GraphEmptyReset.reset_state = some [] ∧
    ([] : Str) ∉ c1GraphEmptyReset.states ∧
    (generateCodeFromGraph [] c1GraphEmptyReset none).isOk = true := by
  exact ⟨rfl, by decide, by decide⟩

/-- C1, amended: `generate_code_from_graph` raises a `ValidationFailure`
(modelled: returns `Except.error`) if and only if `states` has duplicates,
or some transition endpoint is not in `states`, or `reset_state` is set to
a NON-EMPTY name that is not in `states`; every raised error carries a
message naming the offending value; every graph passing all three checks
yields a source string. -/
theorem c1_generate_validation_amended (orig : Str) (g : FSMGraphIn) (mn : Option Str) :
    ((generateCodeFromGraph orig g mn).isOk = true ↔
      (g.states.Nodup ∧ (∀ t ∈ g.transitions, t.frm ∈ g.states ∧ t.dst ∈ g.states) ∧
        (∀ r, g.reset_state = some r → r ≠ [] → r ∈ g.states))) ∧
    (∀ e, generateCodeFromGraph orig g mn = .error e →
      (e = "Duplicate states found".data ∧ ¬g.states.Nodup) ∨
      (∃ t ∈ g.transitions, t.frm ∉ g.states ∧
        e = "Transition from unknown state: ".data ++ t.frm) ∨
      (∃ t ∈ g.transitions, t.dst ∉ g.states ∧
        e = "Transition to unknown state: ".data ++ t.dst) ∨
      (∃ r, g.reset_state = some r ∧ r ≠ [] ∧ r ∉ g.states ∧
        e = "Reset state ".data ++ r ++ " not in states list".data)) := by
  constructor
  · rw [generateCodeFromGraph_isOk_iff, validateGraph_ok_iff]
  · intro e he
    have hval : validateGraph g = .error e := by
      unfold generateCodeFromGraph at he
      rcases h : validateGraph g with e' | u
      · rw [h] at he
        dsimp only at he
        exact congrArg Except.error (Except.error.inj he)
      · rw [h] at he
        simp at he
    unfold validateGraph at hval
    by_cases hd : g.states.length ≠ (uniqKeepFirst g.states).length
    · rw [if_pos hd] at hval
      refine Or.inl ⟨(Except.error.inj hval).symm, ?_⟩
      rw [← uniqKeepFirst_length_iff]
      omega
    · rw [if_neg hd] at hval
      rcases hv : validateTransGo g.states g.transitions with e' | u
      · rw [hv] at hval
        dsimp only at hval
        obtain rfl : e' = e := Except.error.inj hval
        rcases validateTransGo_error _ _ _ hv with h | h
        · exact Or.inr (Or.inl h)
        · exact Or.inr (Or.inr (Or.inl h))
      · obtain ⟨⟩ := u
        rw [hv] at hval
        dsimp only at hval
        cases hr : g.reset_state with
        | none => rw [hr] at hval; simp at hval
        | some r =>
          rw [hr] at hval
          dsimp only at hval
          by_cases hrr : r ≠ [] ∧ r ∉ g.states
          · rw [if_pos hrr] at hval
            exact Or.inr (Or.inr (Or.inr
              ⟨r, rfl, hrr.1, hrr.2, (Except.error.inj hval).symm⟩))
          · rw [if_neg hrr] at hval
            simp at hval

/-- C1, witness: the amended theorem applied to a concrete well-formed
graph shows generation succeeding. -/
theorem c1_generate_validation_witness :
    (generateCodeFromGraph [] genWitnessGraph none).isOk = true := by
  refine ((c1_generate_validation_amended [] genWitnessGraph none).1).mpr
    ⟨by decide, by decide, ?_⟩
  intro r hr hne
  have h : some "IDLE".data = some r := by
    rw [show genWitnessGraph.reset_state = some "IDLE".data from rfl] at hr
    exact hr
  obtain rfl := Option.some.inj h
  decide

-- ==================================================================
-- Claim C3 (corrected)
-- ==================================================================

/-- C3, counterexample to the claim as stated: in `c3GraphMixed` the group
of `from`-state `A` is an unconditional edge followed by one conditional
edge; the claim requires the FIRST CONDITIONAL edge of the group to be
introduced by `if`, but the generated block introduces it with `else if`
(the source indexes by group position, not by conditional-edge
position). -/
theorem c3_always_comb_counterexample :
    "        else if (c)".data ∈ generateAlwaysCombLines c3GraphMixed ∧
    "        if (c)".data ∉ generateAlwaysCombLines c3GraphMixed := by
  decide

/-- C3, amended: the combinational next-state block groups edges by their
`from` state (branches in `states` order, each branch's edges being
exactly the transitions leaving it, in edge-list order), emits an
unconditional edge (guard `"1"` or empty) as a plain assignment, emits a
conditional edge with `if` when it is the first EDGE of its group (group
index 0) and with `else if` at any later group index — even when no
conditional edge precedes it — and ends with an explicit default branch
assigning the current state. -/
theorem c3_always_comb_amended (g : FSMGraphIn) :
    generateAlwaysCombLines g = specCombLines g := by
  unfold generateAlwaysCombLines specCombLines
  dsimp only
  have hmap : ∀ s ∈ g.states,
      combBranchLines
        (if optTruthy g.next_state_var then g.next_state_var.getD [] else g.state_var) s
        ((dictLookup (transitionsByState g.transitions) s).getD []) =
      specBranchLines
        (if optTruthy g.next_state_var then g.next_state_var.getD [] else g.state_var) s
        (g.transitions.filter (fun t => t.frm = s)) := by
    intro s _
    rw [transitionsByState_lookup, specBranchLines_eq]
  rw [List.map_congr_left hmap]

-- ==================================================================
-- Claim C6 (confirmed)
-- ==================================================================

/-- C6: for a non-empty states list, the enum bit-width computed by the
generator is exactly the least `w ≥ 1` with `2 ^ w ≥ |states|` — that is,
`ceil(log2(|states|))` with a minimum of 1. -/
theorem c6_enum_width (n : Nat) (h : 1 ≤ n) :
    1 ≤ calculateEnumWidth n ∧ n ≤ 2 ^ calculateEnumWidth n ∧
      ∀ w, 1 ≤ w → n ≤ 2 ^ w → calculateEnumWidth n ≤ w := by
  unfold calculateEnumWidth
  by_cases h2 : n ≤ 2
  · rw [if_pos h2]
    exact ⟨le_refl 1, by norm_num; omega, fun w hw _ => hw⟩
  · rw [if_neg h2]
    by_cases h4 : n ≤ 4
    · rw [if_pos h4]
      refine ⟨by omega, by norm_num; omega, ?_⟩
      intro w hw hnw
      by_contra hlt
      push_neg at hlt
      have : w = 1 := by omega
      subst this
      norm_num at hnw
      omega
    · rw [if_neg h4]
      by_cases h8 : n ≤ 8
      · rw [if_pos h8]
        refine ⟨by omega, by norm_num; omega, ?_⟩
        intro w hw hnw
        by_contra hlt
        push_neg at hlt
        have hw2 : w ≤ 2 := by omega
        have : 2 ^ w ≤ 2 ^ 2 := Nat.pow_le_pow_right (by norm_num) hw2
        norm_num at this
        omega
      · rw [if_neg h8]
        by_cases h16 : n ≤ 16
        · rw [if_pos h16]
          refine ⟨by omega, by norm_num; omega, ?_⟩
          intro w hw hnw
          by_contra hlt
          push_neg at hlt
          have hw3 : w ≤ 3 := by omega
          have : 2 ^ w ≤ 2 ^ 3 := Nat.pow_le_pow_right (by norm_num) hw3
          norm_num at this
          omega
        · rw [if_neg h16]
          have hb : (1 : ℕ) < 2 := one_lt_two
          refine ⟨?_, Nat.le_pow_clog hb n, ?_⟩
          · have := Nat.clog_pos hb (show 2 ≤ n by omega)
            omega
          · intro w _ hnw
            exact (Nat.le_pow_iff_clog_le hb).1 hnw

/-- C6, witness: the theorem instantiated at five states gives width 3. -/
theorem c6_enum_width_witness :
    1 ≤ 5 ∧ (1 ≤ calculateEnumWidth 5 ∧ 5 ≤ 2 ^ calculateEnumWidth 5 ∧
      ∀ w, 1 ≤ w → 5 ≤ 2 ^ w → calculateEnumWidth 5 ≤ w) :=
  ⟨by norm_num, c6_enum_width 5 (by norm_num)⟩

-- ==================================================================
-- Lemmas for the state-variable classifier
-- ==================================================================

theorem scoreStateName_ge (nm : Str) : -2 ≤ scoreStateName nm := by
  simp only [scoreStateName]
  split_ifs <;> omega

theorem scoreNextName_ge (sv : Option Str) (nm : Str) : -3 ≤ scoreNextName sv nm := by
  simp only [scoreNextName]
  cases sv with
  | none =>
    dsimp only
    split_ifs <;> omega
  | some s =>
    dsimp only
    split_ifs <;> omega

/-- Characterization of the best-so-far scan started at `b`: it returns the
first candidate attaining the maximal score among `b :: xs`. -/
theorem bestScanFrom_spec (f : Str → Int) (xs : List Str) : ∀ b : Str,
    ∃ p, xs.foldl (fun acc n => if f n > acc.2 then (some n, f n) else acc) (some b, f b)
        = (some p, f p) ∧
      f b ≤ f p ∧ (∀ q ∈ xs, f q ≤ f p) ∧
      (p = b ∨ ∃ pre suf, xs = pre ++ p :: suf ∧ f b < f p ∧ ∀ q ∈ pre, f q < f p) := by
  induction xs with
  | nil =>
    intro b
    exact ⟨b, rfl, le_refl _, by simp, Or.inl rfl⟩
  | cons x xs ih =>
    intro b
    simp only [List.foldl_cons]
    by_cases hx : f x > f b
    · rw [if_pos hx]
      obtain ⟨p, heq, hle, hall, hcase⟩ := ih x
      refine ⟨p, heq, by omega, ?_, ?_⟩
      · intro q hq
        rcases List.mem_cons.1 hq with rfl | hq'
        · exact hle
        · exact hall q hq'
      · rcases hcase with rfl | ⟨pre, suf, rfl, hbp, hpre⟩
        · exact Or.inr ⟨[], xs, rfl, hx, by simp⟩
        · refine Or.inr ⟨x :: pre, suf, rfl, by omega, ?_⟩
          intro q hq
          rcases List.mem_cons.1 hq with rfl | hq'
          · omega
          · exact hpre q hq'
    · rw [if_neg hx]
      push_neg at hx
      obtain ⟨p, heq, hle, hall, hcase⟩ := ih b
      refine ⟨p, heq, hle, ?_, ?_⟩
      · intro q hq
        rcases List.mem_cons.1 hq with rfl | hq'
        · omega
        · exact hall q hq'
      · rcases hcase with rfl | ⟨pre, suf, rfl, hbp, hpre⟩
        · exact Or.inl rfl
        · refine Or.inr ⟨x :: pre, suf, rfl, hbp, ?_⟩
          intro q hq
          rcases List.mem_cons.1 hq with rfl | hq'
          · omega
          · exact hpre q hq'

/-- The scan of a non-empty candidate list, with every score above the
−999 floor, picks the first maximal candidate. -/
theorem bestScan_spec (f : Str → Int) (c : Str) (rest : List Str)
    (hfloor : ∀ q ∈ c :: rest, f q > -999) :
    ∃ p pre suf, (bestScan f (c :: rest)).1 = some p ∧
      c :: rest = pre ++ p :: suf ∧
      (∀ q ∈ pre, f q < f p) ∧ (∀ q ∈ c :: rest, f q ≤ f p) ∧
      (bestScan f (c :: rest)).2 = f p := by
  unfold bestScan
  simp only [List.foldl_cons]
  rw [if_pos (by simpa using hfloor c (List.mem_cons_self _ _))]
  obtain ⟨p, heq, hle, hall, hcase⟩ := bestScanFrom_spec f rest c
  rw [heq]
  rcases hcase with rfl | ⟨pre, suf, hsplit, hbp, hpre⟩
  · refine ⟨p, [], rest, rfl, by simp, by simp, ?_, rfl⟩
    intro q hq
    rcases List.mem_cons.1 hq with rfl | hq'
    · exact le_refl _
    · exact hall q hq'
  · refine ⟨p, c :: pre, suf, rfl, by simp [hsplit], ?_, ?_, rfl⟩
    · intro q hq
      rcases List.mem_cons.1 hq with rfl | hq'
      · exact hbp
      · exact hpre q hq'
    · intro q hq
      rcases List.mem_cons.1 hq with rfl | hq'
      · exact hle
      · exact hall q hq'

-- ==================================================================
-- Claim C5 (confirmed)
-- ==================================================================

/-- C5: the classifier's primary-state choice.  The additive score (the
source sums all applicable contributions: the exact name `state` scores
3 + 2 = 5) is pinned down on representative names; the chosen primary is
the first candidate of maximal score among the clocked-written variables,
the whole group serving as the candidate set when no variable is written
in any clocked block (both cases covered by `primaryCandidates`). -/
theorem c5_classifier_primary_choice (scopeNode : Node) (names : List Str)
    (hne : names ≠ []) :
    (scoreStateName "state".data = 5 ∧ scoreStateName "statex".data = 2 ∧
     scoreStateName "xyz".data = 0 ∧ scoreStateName "next".data = -2 ∧
     scoreStateName "x_d".data = -2 ∧ scoreStateName "next_state".data = 0) ∧
    ∃ p pre suf,
      (chooseStateAndNext scopeNode names).1 = some p ∧
      primaryCandidates (collectAlwaysNodes scopeNode) names = pre ++ p :: suf ∧
      (∀ q ∈ pre, scoreStateName q < scoreStateName p) ∧
      (∀ q ∈ primaryCandidates (collectAlwaysNodes scopeNode) names,
        scoreStateName q ≤ scoreStateName p) := by
  refine ⟨by decide, ?_⟩
  have hcands : primaryCandidates (collectAlwaysNodes scopeNode) names ≠ [] := by
    unfold primaryCandidates
    dsimp only
    split
    · exact hne
    · assumption
  rcases hc : primaryCandidates (collectAlwaysNodes scopeNode) names with _ | ⟨c, rest⟩
  · exact absurd hc hcands
  obtain ⟨p, pre, suf, h1, h2, h3, h4, _⟩ :=
    bestScan_spec scoreStateName c rest
      (fun q _ => by have := scoreStateName_ge q; omega)
  refine ⟨p, pre, suf, ?_, h2, h3, h4⟩
  show (chooseStateAndNext scopeNode names).1 = some p
  unfold chooseStateAndNext
  dsimp only
  have : (let written := names.filter (fun n => writtenClocked (collectAlwaysNodes scopeNode) n)
          if written = [] then names else written) = c :: rest := by
    rw [← hc]; rfl
  rw [this, h1]

/-- C5, witness: the classifier applied to the two-block fixture scope with
group `[state, next_state]`. -/
theorem c5_classifier_primary_choice_witness :
    (scoreStateName "state".data = 5 ∧ scoreStateName "statex".data = 2 ∧
     scoreStateName "xyz".data = 0 ∧ scoreStateName "next".data = -2 ∧
     scoreStateName "x_d".data = -2 ∧ scoreStateName "next_state".data = 0) ∧
    ∃ p pre suf,
      (chooseStateAndNext c10ScopeNode ["state".data, "next_state".data]).1 = some p ∧
      primaryCandidates (collectAlwaysNodes c10ScopeNode)
        ["state".data, "next_state".data] = pre ++ p :: suf ∧
      (∀ q ∈ pre, scoreStateName q < scoreStateName p) ∧
      (∀ q ∈ primaryCandidates (collectAlwaysNodes c10ScopeNode)
          ["state".data, "next_state".data], scoreStateName q ≤ scoreStateName p) :=
  c5_classifier_primary_choice c10ScopeNode ["state".data, "next_state".data] (by decide)

-- ==================================================================
-- Claim C10 (confirmed)
-- ==================================================================

/-- C10: whenever some variable of the group is written in a combinational
block, the classifier returns a non-`none` next-state variable — the first
maximal-scoring combinationally-written candidate, even at a negative
score — and on the fixture scope, where the chosen primary `state` is the
only combinationally-written variable, the returned next-state variable
EQUALS the primary. -/
theorem c10_next_state_choice (scopeNode : Node) (names : List Str) :
    ((names.filter (fun n => writtenComb (collectAlwaysNodes scopeNode) n)) ≠ [] →
      ∃ p pre suf,
        (chooseStateAndNext scopeNode names).2 = some p ∧
        names.filter (fun n => writtenComb (collectAlwaysNodes scopeNode) n)
          = pre ++ p :: suf ∧
        (∀ q ∈ pre, scoreNextName (chooseStateAndNext scopeNode names).1 q
          < scoreNextName (chooseStateAndNext scopeNode names).1 p) ∧
        (∀ q ∈ names.filter (fun n => writtenComb (collectAlwaysNodes scopeNode) n),
          scoreNextName (chooseStateAndNext scopeNode names).1 q
            ≤ scoreNextName (chooseStateAndNext scopeNode names).1 p)) ∧
    chooseStateAndNext c10ScopeNode ["state".data]
      = (some "state".data, some "state".data) := by
  constructor
  · intro hne
    rcases hc : names.filter (fun n => writtenComb (collectAlwaysNodes scopeNode) n)
      with _ | ⟨c, rest⟩
    · exact absurd hc hne
    have hfst : (chooseStateAndNext scopeNode names).1
        = (bestScan scoreStateName
            (primaryCandidates (collectAlwaysNodes scopeNode) names)).1 := by
      unfold chooseStateAndNext primaryCandidates
      rfl
    obtain ⟨p, pre, suf, h1, h2, h3, h4, h5⟩ :=
      bestScan_spec (scoreNextName (chooseStateAndNext scopeNode names).1) c rest
        (fun q _ => by
          have := scoreNextName_ge (chooseStateAndNext scopeNode names).1 q
          omega)
    refine ⟨p, pre, suf, ?_, h2, h3, h4⟩
    show (chooseStateAndNext scopeNode names).2 = some p
    unfold chooseStateAndNext
    dsimp only
    rw [show (names.filter (fun n => writtenComb (collectAlwaysNodes scopeNode) n))
        = c :: rest from hc]
    rw [show (bestScan scoreStateName
        (let written := names.filter (fun n => writtenClocked (collectAlwaysNodes scopeNode) n)
         if written = [] then names else written)).1
        = (chooseStateAndNext scopeNode names).1 from by
      unfold chooseStateAndNext
      rfl]
    rw [h1, h5]
    rw [if_pos (by
      have := scoreNextName_ge (chooseStateAndNext scopeNode names).1 p
      omega)]
  · decide

/-- C10, witness: the theorem applied to the fixture scope with the
single-variable group `[state]`, discharging the non-empty-candidates
hypothesis there. -/
theorem c10_next_state_choice_witness :
    ∃ p pre suf,
      (chooseStateAndNext c10ScopeNode ["state".data]).2 = some p ∧
      ["state".data].filter
        (fun n => writtenComb (collectAlwaysNodes c10ScopeNode) n) = pre ++ p :: suf ∧
      (∀ q ∈ pre, scoreNextName (chooseStateAndNext c10ScopeNode ["state".data]).1 q
        < scoreNextName (chooseStateAndNext c10ScopeNode ["state".data]).1 p) ∧
      (∀ q ∈ ["state".data].filter
          (fun n => writtenComb (collectAlwaysNodes c10ScopeNode) n),
        scoreNextName (chooseStateAndNext c10ScopeNode ["state".data]).1 q
          ≤ scoreNextName (chooseStateAndNext c10ScopeNode ["state".data]).1 p) :=
  (c10_next_state_choice c10ScopeNode ["state".data]).1 (by decide)

-- ==================================================================
-- Claim C7 (confirmed)
-- ==================================================================

/-- C7: the reset detector equals its specification — scan blocks in
order, skip non-clocked ones, and for the first clocked block whose text
mentions the state variable and whose whitespace-stripped text contains an
assignment of it to a member under either spelling (`=` or `<=`), return
the first matching member; with no such block, no reset state — and every
returned member belongs to the member list. -/
theorem c7_detect_reset (alwaysNodes : List Node) (sv : Str) (members : List Str) :
    detectResetState alwaysNodes sv members = detectResetStateSpec alwaysNodes sv members ∧
    ∀ m, detectResetState alwaysNodes sv members = some m → m ∈ members := by
  have hmain : detectResetState alwaysNodes sv members
      = detectResetStateSpec alwaysNodes sv members := by
    induction alwaysNodes with
    | nil => rfl
    | cons a rest ih =>
      unfold detectResetState detectResetStateSpec
      by_cases hclk : isClockedAlways a
      · rw [if_pos hclk]
        by_cases htxt : strContains (collectIdentifiersInline a) sv
        · rw [if_pos htxt]
          dsimp only
          rcases hfind : List.find? (fun m =>
              strContains (removeWs (collectIdentifiersInline a)) (sv ++ "=".data ++ m)
              || strContains (removeWs (collectIdentifiersInline a)) (sv ++ "<=".data ++ m))
              members with _ | m
          · dsimp only
            have hmatch : blockResetMatch sv members a = false := by
              unfold blockResetMatch
              rw [htxt]
              simp only [Bool.true_and]
              rw [List.any_eq_false]
              intro m hm
              have := List.find?_eq_none.1 hfind m hm
              unfold blockResetPattern
              simpa using this
            rw [List.find?_cons_of_neg _ (by simp [hclk, hmatch])]
            simpa [detectResetStateSpec] using ih
          · dsimp only
            have hmatch : blockResetMatch sv members a = true := by
              unfold blockResetMatch
              rw [htxt]
              simp only [Bool.true_and]
              rw [List.any_eq_true]
              have hp := List.find?_some hfind
              have hmem := List.mem_of_find?_eq_some hfind
              exact ⟨m, hmem, by unfold blockResetPattern; simpa using hp⟩
            rw [List.find?_cons_of_pos _ (by simp [hclk, hmatch])]
            simp only [Option.bind_eq_bind, Option.some_bind]
            rw [← hfind]
            rfl
        · rw [if_neg htxt]
          have hmatch : blockResetMatch sv members a = false := by
            unfold blockResetMatch
            rw [Bool.and_eq_false_iff]
            left
            simpa using htxt
          rw [List.find?_cons_of_neg _ (by simp [hmatch])]
          simpa [detectResetStateSpec] using ih
      · rw [if_neg hclk]
        rw [List.find?_cons_of_neg _ (by simp [hclk])]
        simpa [detectResetStateSpec] using ih
  refine ⟨hmain, ?_⟩
  intro m hm
  rw [hmain] at hm
  unfold detectResetStateSpec at hm
  rcases hfind : alwaysNodes.find? (fun a => isClockedAlways a && blockResetMatch sv members a)
    with _ | a
  · rw [hfind] at hm
    simp at hm
  · rw [hfind] at hm
    simp only [Option.bind_eq_bind, Option.some_bind] at hm
    exact List.mem_of_find?_eq_some hm

/-- C7, witness: the theorem applied to the fixture clocked block, whose
text assigns `state <= IDLE` on the reset branch. -/
theorem c7_detect_reset_witness :
    "IDLE".data ∈ ["IDLE".data, "REQ".data] :=
  (c7_detect_reset [c7ClockedNode] "state".data ["IDLE".data, "REQ".data]).2
    "IDLE".data (by decide)


-- ==================================================================
-- Lemmas for branch extraction (claim C4)
-- ==================================================================

theorem findFirstEnum_fold (text : Str) (ms : List Str) :
    ∀ (best : Option (Nat × Str)),
    (∀ bi bm, best = some (bi, bm) → strFind bm text = some bi) →
    (∀ ri rm, ms.foldl (ffeStep text) best = some (ri, rm) →
      strFind rm text = some ri ∧
      (∀ bi bm, best = some (bi, bm) → ri ≤ bi) ∧
      (∀ m ∈ ms, ∀ j, strFind m text = some j → ri ≤ j) ∧
      (rm ∈ ms ∨ best = some (ri, rm))) ∧
    (ms.foldl (ffeStep text) best = none →
      best = none ∧ ∀ m ∈ ms, strFind m text = none) := by
  induction ms with
  | nil =>
    intro best hbest
    simp only [List.foldl_nil]
    constructor
    · intro ri rm h
      refine ⟨hbest ri rm h, ?_, by simp, Or.inr h⟩
      intro bi bm hb
      rw [h] at hb
      injection hb with h'
      cases h'
      omega
    · intro h
      exact ⟨h, by simp⟩
  | cons m ms ih =>
    intro best hbest
    simp only [List.foldl_cons]
    rcases hf : strFind m text with _ | idx
    · -- this member does not occur: accumulator unchanged
      have hstep : ffeStep text best m = best := by
        unfold ffeStep
        rw [hf]
      rw [hstep]
      obtain ⟨ihs, ihn⟩ := ih best hbest
      constructor
      · intro ri rm h
        obtain ⟨h1, h2, h3, h4⟩ := ihs ri rm h
        refine ⟨h1, h2, ?_, ?_⟩
        · intro q hq j hj
          rcases List.mem_cons.1 hq with rfl | hq'
          · rw [hf] at hj; cases hj
          · exact h3 q hq' j hj
        · rcases h4 with h4 | h4
          · exact Or.inl (List.mem_cons_of_mem _ h4)
          · exact Or.inr h4
      · intro h
        obtain ⟨h1, h2⟩ := ihn h
        refine ⟨h1, ?_⟩
        intro q hq
        rcases List.mem_cons.1 hq with rfl | hq'
        · exact hf
        · exact h2 q hq'
    · rcases best with _ | ⟨bi, bm⟩
      · -- accumulator was empty: it becomes (idx, m)
        have hstep : ffeStep text none m = some (idx, m) := by
          unfold ffeStep
          rw [hf]
        rw [hstep]
        obtain ⟨ihs, ihn⟩ := ih (some (idx, m))
          (fun bi' bm' hb => by injection hb with h'; cases h'; exact hf)
        constructor
        · intro ri rm h
          obtain ⟨h1, h2, h3, h4⟩ := ihs ri rm h
          have hri : ri ≤ idx := h2 idx m rfl
          refine ⟨h1, by simp, ?_, ?_⟩
          · intro q hq j hj
            rcases List.mem_cons.1 hq with rfl | hq'
            · rw [hf] at hj; injection hj with h'; omega
            · exact h3 q hq' j hj
          · rcases h4 with h4 | h4
            · exact Or.inl (List.mem_cons_of_mem _ h4)
            · injection h4 with h'
              cases h'
              exact Or.inl (List.mem_cons_self _ _)
        · intro h
          obtain ⟨h1, _⟩ := ihn h
          cases h1
      · by_cases hlt : idx < bi
        · have hstep : ffeStep text (some (bi, bm)) m = some (idx, m) := by
            unfold ffeStep
            rw [hf]
            dsimp only
            rw [if_pos hlt]
          rw [hstep]
          obtain ⟨ihs, ihn⟩ := ih (some (idx, m))
            (fun bi' bm' hb => by injection hb with h'; cases h'; exact hf)
          constructor
          · intro ri rm h
            obtain ⟨h1, h2, h3, h4⟩ := ihs ri rm h
            have hri : ri ≤ idx := h2 idx m rfl
            refine ⟨h1, ?_, ?_, ?_⟩
            · intro bi' bm' hb
              injection hb with h'
              cases h'
              omega
            · intro q hq j hj
              rcases List.mem_cons.1 hq with rfl | hq'
              · rw [hf] at hj; injection hj with h'; omega
              · exact h3 q hq' j hj
            · rcases h4 with h4 | h4
              · exact Or.inl (List.mem_cons_of_mem _ h4)
              · injection h4 with h'
                cases h'
                exact Or.inl (List.mem_cons_self _ _)
          · intro h
            obtain ⟨h1, _⟩ := ihn h
            cases h1
        · have hstep : ffeStep text (some (bi, bm)) m = some (bi, bm) := by
            unfold ffeStep
            rw [hf]
            dsimp only
            rw [if_neg hlt]
          rw [hstep]
          obtain ⟨ihs, ihn⟩ := ih (some (bi, bm)) hbest
          constructor
          · intro ri rm h
            obtain ⟨h1, h2, h3, h4⟩ := ihs ri rm h
            have hri : ri ≤ bi := h2 bi bm rfl
            refine ⟨h1, ?_, ?_, ?_⟩
            · intro bi' bm' hb
              injection hb with h'
              cases h'
              omega
            · intro q hq j hj
              rcases List.mem_cons.1 hq with rfl | hq'
              · rw [hf] at hj; injection hj with h'; omega
              · exact h3 q hq' j hj
            · rcases h4 with h4 | h4
              · exact Or.inl (List.mem_cons_of_mem _ h4)
              · exact Or.inr h4
          · intro h
            obtain ⟨h1, _⟩ := ihn h
            cases h1

theorem findFirstEnumInText_none_iff (ms : List Str) (text : Str) :
    findFirstEnumInText ms text = none ↔ ∀ m ∈ ms, strFind m text = none := by
  unfold findFirstEnumInText
  rw [Option.map_eq_none']
  constructor
  · intro h
    exact ((findFirstEnum_fold text ms none (by simp)).2 h).2
  · intro h
    rcases hfold : ms.foldl (ffeStep text) none with _ | ⟨ri, rm⟩
    · rfl
    · obtain ⟨h1, _, _, h4⟩ := (findFirstEnum_fold text ms none (by simp)).1 ri rm hfold
      rcases h4 with h4 | h4
      · rw [h rm h4] at h1; cases h1
      · cases h4

theorem findFirstEnumInText_some (ms : List Str) (text : Str) (f : Str)
    (h : findFirstEnumInText ms text = some f) :
    f ∈ ms ∧ ∃ i, strFind f text = some i ∧
      ∀ m ∈ ms, ∀ j, strFind m text = some j → i ≤ j := by
  unfold findFirstEnumInText at h
  rw [Option.map_eq_some'] at h
  obtain ⟨⟨ri, rm⟩, hfold, rfl⟩ := h
  obtain ⟨h1, _, h3, h4⟩ := (findFirstEnum_fold text ms none (by simp)).1 ri rm hfold
  rcases h4 with h4 | h4
  · exact ⟨h4, ri, h1, h3⟩
  · cases h4

theorem ifMatchHere_pos (s : Str) (cond : Str) (len : Nat)
    (h : ifMatchHere s = some (cond, len)) : 1 ≤ len := by
  unfold ifMatchHere at h
  split at h
  · dsimp only at h
    split at h
    · split at h
      · injection h with h'
        injection h' with h1 h2
        omega
      · cases h
    · cases h
  · cases h

/-- The `if`-matches carry strictly increasing start positions, all at
least the scanning origin. -/
theorem findIfMatches_increasing (s : Str) (pos : Nat) :
    (∀ p ∈ findIfMatches pos s, pos ≤ p.1) ∧
      List.Pairwise (fun a b => a.1 < b.1) (findIfMatches pos s) := by
  induction pos, s using findIfMatches.induct with
  | case1 pos => simp [findIfMatches]
  | case2 pos c t cond len hm ih =>
    obtain ⟨ih1, ih2⟩ := ih
    have hlen := ifMatchHere_pos _ _ _ hm
    constructor
    · intro p hp
      rw [findIfMatches, hm] at hp
      rcases List.mem_cons.1 hp with rfl | hp'
      · exact le_refl _
      · have := ih1 p hp'
        omega
    · rw [findIfMatches, hm]
      refine List.pairwise_cons.2 ⟨?_, ih2⟩
      intro q hq
      have := ih1 q hq
      dsimp only
      omega
  | case3 pos c t hm ih =>
    obtain ⟨ih1, ih2⟩ := ih
    constructor
    · intro p hp
      rw [findIfMatches, hm] at hp
      have := ih1 p hp
      omega
    · rw [findIfMatches, hm]
      exact ih2

theorem getLast?_eq_none_iff' (l : List α) : l.getLast? = none ↔ l = [] := by
  cases l with
  | nil => simp
  | cons a l => simp [List.getLast?]

theorem getLast?_max_of_sorted (l : List (Nat × Str))
    (hp : List.Pairwise (fun a b => a.1 < b.1) l) (m : Nat × Str)
    (hm : l.getLast? = some m) : m ∈ l ∧ ∀ q ∈ l, q.1 ≤ m.1 := by
  induction l with
  | nil => cases hm
  | cons a l ih =>
    cases l with
    | nil =>
      rw [List.getLast?_singleton] at hm
      obtain rfl := Option.some.inj hm
      exact ⟨List.mem_cons_self _ _, by simp⟩
    | cons b l' =>
      rw [List.getLast?_cons_cons] at hm
      obtain ⟨h1, h2⟩ := List.pairwise_cons.1 hp
      obtain ⟨hmem, hmax⟩ := ih h2 hm
      refine ⟨List.mem_cons_of_mem _ hmem, ?_⟩
      intro q hq
      rcases List.mem_cons.1 hq with rfl | hq'
      · have := h1 m hmem
        omega
      · exact hmax q hq'

/-- Characterization of the guard selection: either no `if`-match starts
before the assignment and the guard is `"1"`, or the guard is the stripped
condition of the LAST (nearest) `if`-match starting before it. -/
theorem condOfNearestIf_spec (ifMs : List (Nat × Str))
    (hp : List.Pairwise (fun a b => a.1 < b.1) ifMs) (s : Nat) :
    (condOfNearestIf ifMs s = "1".data ∧ ∀ q ∈ ifMs, ¬ q.1 < s) ∨
    (∃ p c, (p, c) ∈ ifMs ∧ p < s ∧ condOfNearestIf ifMs s = pyStrip c ∧
      ∀ q ∈ ifMs, q.1 < s → q.1 ≤ p) := by
  unfold condOfNearestIf
  rcases hlast : (ifMs.filter (fun m => m.1 < s)).getLast? with _ | m
  · left
    rw [hlast]
    refine ⟨rfl, ?_⟩
    intro q hq hlt
    have hnil := (getLast?_eq_none_iff' _).1 hlast
    have : q ∈ ifMs.filter (fun m => m.1 < s) := by
      rw [List.mem_filter]
      exact ⟨hq, by simpa using hlt⟩
    rw [hnil] at this
    cases this
  · right
    rw [hlast]
    have hps : List.Pairwise (fun (a b : Nat × Str) => a.1 < b.1)
        (ifMs.filter (fun m => m.1 < s)) :=
      hp.sublist (List.filter_sublist _)
    obtain ⟨hmem, hmax⟩ := getLast?_max_of_sorted _ hps m hlast
    rw [List.mem_filter] at hmem
    refine ⟨m.1, m.2, hmem.1, by simpa using hmem.2, rfl, ?_⟩
    intro q hq hlt
    exact hmax q (List.mem_filter.2 ⟨hq, by simpa using hlt⟩)

-- ==================================================================
-- Claim C4 (confirmed)
-- ==================================================================

/-- C4: per-branch edge extraction.  (1) A branch whose text contains no
recognized enum member yields no edges (and, the embedding being total, no
error).  (2) Every produced edge's `from` state is a member whose first
occurrence offset in the branch text is minimal among all members
occurring there.  (3) Every produced edge comes from an
assignment-pattern match of the write target whose right side is a
member, and its guard is the stripped condition of the nearest preceding
`if (COND)` match, or `"1"` when no `if`-match precedes the
assignment. -/
theorem c4_branch_edges (members : List Str) (lhsName : Str) (item : Node) :
    ((∀ m ∈ members, strContains (collectIdentifiersInline item) m = false) →
      transitionsOfCaseItem members lhsName item = []) ∧
    (∀ e ∈ transitionsOfCaseItem members lhsName item,
      (e.frm ∈ members ∧
        ∃ i, strFind e.frm (collectIdentifiersInline item) = some i ∧
          ∀ m ∈ members, ∀ j, strFind m (collectIdentifiersInline item) = some j → i ≤ j) ∧
      (e.dst ∈ members ∧
        ∃ s, (s, e.dst) ∈ findAssignMatches lhsName 0 (collectIdentifiersInline item) ∧
          ((e.cond = "1".data ∧
              ∀ q ∈ findIfMatches 0 (collectIdentifiersInline item), ¬ q.1 < s) ∨
            (∃ p c, (p, c) ∈ findIfMatches 0 (collectIdentifiersInline item) ∧ p < s ∧
              e.cond = pyStrip c ∧
              ∀ q ∈ findIfMatches 0 (collectIdentifiersInline item), q.1 < s → q.1 ≤ p)))) := by
  constructor
  · intro hnone
    unfold transitionsOfCaseItem
    dsimp only
    split
    · rfl
    · rw [(findFirstEnumInText_none_iff members (collectIdentifiersInline item)).2 ?_]
      · intro m hm
        have := hnone m hm
        unfold strContains at this
        rcases hf : strFind m (collectIdentifiersInline item) with _ | i
        · rfl
        · rw [hf] at this
          simp at this
  · intro e he
    unfold transitionsOfCaseItem at he
    dsimp only at he
    split at he
    · cases he
    · rcases hffe : findFirstEnumInText members (collectIdentifiersInline item) with _ | f
      · rw [hffe] at he
        cases he
      · rw [hffe] at he
        dsimp only at he
        rw [List.mem_map] at he
        obtain ⟨⟨dst, cond⟩, hpair, rfl⟩ := he
        obtain ⟨hfm, i, hfi, hmin⟩ := findFirstEnumInText_some _ _ _ hffe
        refine ⟨⟨hfm, i, hfi, hmin⟩, ?_⟩
        unfold findAssignmentsWithConditions at hpair
        rw [uniqKeepFirst_mem_iff] at hpair
        rw [List.mem_filterMap] at hpair
        obtain ⟨⟨astart, rhs⟩, ham, hcnd⟩ := hpair
        split at hcnd
        · injection hcnd with h'
          injection h' with hd hc
          subst hd
          subst hc
          refine ⟨by assumption, astart, ham, ?_⟩
          have hinc := (findIfMatches_increasing (collectIdentifiersInline item) 0).2
          rcases condOfNearestIf_spec (findIfMatches 0 (collectIdentifiersInline item))
            hinc astart with ⟨h1, h2⟩ | ⟨p, c, hpc, hps, hcnd', hnear⟩
          · exact Or.inl ⟨h1, h2⟩
          · exact Or.inr ⟨p, c, hpc, hps, hcnd', hnear⟩
        · cases hcnd

/-- C4, witness: the theorem applied to a concrete case-item node whose
text is `IDLE:if(req)next_state=REQ;` yields an edge whose `from` state is
a recognized member. -/
theorem c4_branch_edges_witness :
    (⟨"IDLE".data, "REQ".data, "req".data⟩ : Transition).frm ∈ ["IDLE".data, "REQ".data] := by
  have h1 : findIfMatches 0 "IDLE:if(req)next_state=REQ;".data = [(5, "req".data)] := by
    simp [findIfMatches, ifMatchHere, scanToParen, countLeadingWs, isPySpace]
  have h2 : findAssignMatches "next_state".data 0 "IDLE:if(req)next_state=REQ;".data
      = [(12, "REQ".data)] := by
    simp [findAssignMatches, assignMatchHere, strStartsWith, countLeadingWs, isPySpace,
      isPyIdentStart, isPyWord]
  have hmem : (⟨"IDLE".data, "REQ".data, "req".data⟩ : Transition)
      ∈ transitionsOfCaseItem ["IDLE".data, "REQ".data] "next_state".data c4ItemNode := by
    unfold transitionsOfCaseItem findAssignmentsWithConditions
    rw [show collectIdentifiersInline c4ItemNode = "IDLE:if(req)next_state=REQ;".data from rfl]
    dsimp only
    rw [h1, h2]
    decide
  exact ((c4_branch_edges ["IDLE".data, "REQ".data] "next_state".data c4ItemNode).2
    _ hmem).1.1

-- ==================================================================
-- Lemmas for the pipeline claims
-- ==================================================================

theorem firstSome_some (f : α → Option β) (l : List α) (b : β)
    (h : firstSome f l = some b) : ∃ x ∈ l, f x = some b := by
  induction l with
  | nil => cases h
  | cons x xs ih =>
    unfold firstSome at h
    rcases hf : f x with _ | b'
    · rw [hf] at h
      obtain ⟨y, hy, hfy⟩ := ih h
      exact ⟨y, List.mem_cons_of_mem _ hy, hfy⟩
    · rw [hf] at h
      dsimp only at h
      exact ⟨x, List.mem_cons_self _ _, hf.trans h⟩

theorem transitionsOfCaseItem_mem (ms : List Str) (lhs : Str) (item : Node)
    (e : Transition) (he : e ∈ transitionsOfCaseItem ms lhs item) :
    e.frm ∈ ms ∧ e.dst ∈ ms := by
  unfold transitionsOfCaseItem at he
  dsimp only at he
  split at he
  · cases he
  · rcases hffe : findFirstEnumInText ms (collectIdentifiersInline item) with _ | f
    · rw [hffe] at he
      cases he
    · rw [hffe] at he
      dsimp only at he
      rw [List.mem_map] at he
      obtain ⟨⟨dst, cond⟩, hpair, rfl⟩ := he
      obtain ⟨hfm, _, _, _⟩ := findFirstEnumInText_some _ _ _ hffe
      unfold findAssignmentsWithConditions at hpair
      rw [uniqKeepFirst_mem_iff, List.mem_filterMap] at hpair
      obtain ⟨⟨astart, rhs⟩, _, hcnd⟩ := hpair
      split at hcnd
      · injection hcnd with h'
        injection h' with hd hc
        subst hd
        exact ⟨hfm, by assumption⟩
      · cases hcnd

theorem buildTransitionsFromCases_mem (caseNodes : List Node) (sv : Str)
    (nsv : Option Str) (ms : List Str) (e : Transition)
    (he : e ∈ buildTransitionsFromCases caseNodes sv nsv ms) :
    e.frm ∈ ms ∧ e.dst ∈ ms := by
  unfold buildTransitionsFromCases at he
  dsimp only at he
  split at he
  · cases he
  · rw [List.mem_flatten] at he
    obtain ⟨l, hl, hel⟩ := he
    rw [List.mem_map] at hl
    obtain ⟨cn, _, rfl⟩ := hl
    rw [List.mem_flatten] at hel
    obtain ⟨l', hl', hel'⟩ := hel
    rw [List.mem_map] at hl'
    obtain ⟨item, _, rfl⟩ := hl'
    exact transitionsOfCaseItem_mem _ _ _ _ hel'

theorem detectResetState_mem (alwaysNodes : List Node) (sv : Str) (ms : List Str)
    (m : Str) (h : detectResetState alwaysNodes sv ms = some m) : m ∈ ms := by
  induction alwaysNodes with
  | nil => cases h
  | cons a rest ih =>
    unfold detectResetState at h
    by_cases hclk : isClockedAlways a
    · rw [if_pos hclk] at h
      by_cases htxt : strContains (collectIdentifiersInline a) sv
      · rw [if_pos htxt] at h
        rcases hfind : List.find? (fun m =>
            strContains (removeWs (collectIdentifiersInline a)) (sv ++ "=".data ++ m)
            || strContains (removeWs (collectIdentifiersInline a)) (sv ++ "<=".data ++ m)) ms
          with _ | m'
        · rw [hfind] at h
          exact ih h
        · rw [hfind] at h
          obtain rfl := Option.some.inj h
          exact List.mem_of_find?_eq_some hfind
      · rw [if_neg htxt] at h
        exact ih h
    · rw [if_neg hclk] at h
      exact ih h

-- ==================================================================
-- Claim C2 (confirmed)
-- ==================================================================

/-- C2: every graph produced by `build_fsm_graphs_from_cst` satisfies the
invariants — transition endpoints lie in `states`, a present `reset_state`
lies in `states`, `transitions` holds no duplicate `(from, to, cond)`
triple, and `states` is VERBATIM (unreordered, undeduplicated) the member
list the enum resolver computed for this scope's enum, which carries the
declaration order. -/
theorem c2_graph_invariants (root : Node) :
    ∀ g ∈ buildFsmGraphsFromCst root,
      (∀ t ∈ g.transitions, t.frm ∈ g.states ∧ t.dst ∈ g.states) ∧
      (∀ r, g.reset_state = some r → r ∈ g.states) ∧
      g.transitions.Nodup ∧
      (∃ ev ∈ detectEnumVariablesFromCst root,
        ev.scope = g.scope ∧ g.states = ev.enum_members) := by
  intro g hg
  unfold buildFsmGraphsFromCst at hg
  dsimp only at hg
  rw [List.mem_filterMap] at hg
  obtain ⟨kv, _, hbuild⟩ := hg
  unfold buildOneGraph at hbuild
  rcases hsn : dictLookup ((scopePairsGo root).foldl (fun d p => dictInsert d p.1 p.2) [])
      kv.1.1 with _ | scopeNode
  · rw [hsn] at hbuild
    cases hbuild
  · rw [hsn] at hbuild
    dsimp only at hbuild
    split at hbuild
    · cases hbuild
    · rename_i hmembers
      rcases hch : chooseStateAndNext scopeNode (kv.2.map (fun v => v.info.var_name))
        with ⟨_ | sv, nsv⟩
      · rw [hch] at hbuild
        cases hbuild
      · rw [hch] at hbuild
        dsimp only at hbuild
        split at hbuild
        · cases hbuild
        · obtain rfl := Option.some.inj hbuild
          refine ⟨?_, ?_, ?_, ?_⟩
          · intro t ht
            dsimp only at ht ⊢
            rw [uniqKeepFirst_mem_iff] at ht
            exact buildTransitionsFromCases_mem _ _ _ _ _ ht
          · intro r hr
            dsimp only at hr ⊢
            exact detectResetState_mem _ _ _ _ hr
          · exact uniqKeepFirst_nodup _
          · dsimp only
            rcases hfs : firstSome (fun v =>
                dictLookup ((detectEnumVariablesFromCst root).foldl
                  (fun d ev => dictInsert d (ev.scope, ev.var_name) ev) [])
                (kv.1.1, v.info.var_name)) kv.2 with _ | ev
            · rw [hfs] at hmembers
              simp at hmembers
            · obtain ⟨v, _, hlook⟩ := firstSome_some _ _ _ hfs
              rcases dictLookup_foldl_insert _ _ _ _ _ _ hlook with hinit | ⟨ev', hev', hkey, hval⟩
              · cases hinit
              · subst hval
                refine ⟨ev', hev', ?hA, ?hB⟩
                case hA =>
                  injection hkey with h1 h2
                case hB =>
                  rw [hfs]
                  rfl

/-- C2, witness: the theorem applied to the concrete module tree `c2Tree`,
whose extraction yields exactly `c2Graph`; its detected reset state lies
in its states list. -/
theorem c2_graph_invariants_witness : "IDLE".data ∈ c2Graph.states :=
  ((c2_graph_invariants c2Tree c2Graph (by decide)).2.1) "IDLE".data (by decide)

-- ==================================================================
-- Claim C9 (confirmed)
-- ==================================================================

/-- C9: when the tree holds no enum declaration (the resolver's `EnumType`
collection — exactly the nodes of that kind — is empty), the enum index
and alias map are empty, enum detection returns the empty list, the FSM
candidate list is empty, and `build_fsm_graphs_from_cst` returns the empty
graph list; the embedding being total, no step raises. -/
theorem c9_no_enum_empty_results (root : Node)
    (h : collectEnumsWithParents root = []) :
    buildEnumIndex root = ([], []) ∧
    detectEnumVariablesFromCst root = [] ∧
    detectFsmEnumCandidatesFromCst root = [] ∧
    buildFsmGraphsFromCst root = [] := by
  have hidx : buildEnumIndex root = ([], []) := by
    unfold buildEnumIndex buildEnumIndexPre
    rw [h]
    rfl
  have hdet : detectEnumVariablesFromCst root = [] := by
    unfold detectEnumVariablesFromCst
    rw [hidx]
    rfl
  have hcand : detectFsmEnumCandidatesFromCst root = [] := by
    unfold detectFsmEnumCandidatesFromCst
    rw [hdet]
    rfl
  refine ⟨hidx, hdet, hcand, ?_⟩
  unfold buildFsmGraphsFromCst
  rw [hcand]
  rfl

/-- C9, witness: a module tree with no enum declaration yields empty
results, via the theorem. -/
theorem c9_no_enum_empty_results_witness :
    detectEnumVariablesFromCst c9Tree = [] ∧ buildFsmGraphsFromCst c9Tree = [] :=
  ⟨(c9_no_enum_empty_results c9Tree (by rfl)).2.1,
   (c9_no_enum_empty_results c9Tree (by rfl)).2.2.2⟩

-- ==================================================================
-- Lemmas for anonymous-enum naming (claim C8)
-- ==================================================================

theorem digitChar_toNat (n : Nat) (h : n < 10) : (digitChar n).toNat = 48 + n := by
  interval_cases n <;> decide

theorem natDigits_decode (n : Nat) : ∀ a : Nat,
    (natDigits n).foldl (fun acc c => acc * 10 + (c.toNat - 48)) a
      = a * 10 ^ (natDigits n).length + n := by
  induction n using natDigits.induct with
  | case1 n h =>
    intro a
    rw [natDigits, dif_pos h]
    simp only [List.foldl_cons, List.foldl_nil, List.length_cons, List.length_nil]
    rw [digitChar_toNat n h]
    have : 48 + n - 48 = n := by omega
    rw [this]
    ring
  | case2 n h ih =>
    intro a
    rw [natDigits, dif_neg h]
    rw [List.foldl_append, List.length_append]
    simp only [List.foldl_cons, List.foldl_nil, List.length_cons, List.length_nil]
    rw [ih a]
    have hm : n % 10 < 10 := Nat.mod_lt _ (by norm_num)
    rw [digitChar_toNat _ hm]
    have h48 : 48 + n % 10 - 48 = n % 10 := by omega
    rw [h48]
    have hdm : 10 * (n / 10) + n % 10 = n := Nat.div_add_mod n 10
    calc (a * 10 ^ (natDigits (n / 10)).length + n / 10) * 10 + n % 10
        = a * (10 ^ (natDigits (n / 10)).length * 10) + (10 * (n / 10) + n % 10) := by ring
      _ = a * 10 ^ ((natDigits (n / 10)).length + (0 + 1)) + n := by
          rw [hdm]
          ring

theorem natDigits_inj (m n : Nat) (h : natDigits m = natDigits n) : m = n := by
  have hm := natDigits_decode m 0
  have hn := natDigits_decode n 0
  rw [h] at hm
  simp only [Nat.zero_mul, Nat.zero_add] at hm hn
  omega

theorem natDigits_no_underscore (n : Nat) : ∀ c ∈ natDigits n, c ≠ '_' := by
  induction n using natDigits.induct with
  | case1 n h =>
    intro c hc
    rw [natDigits, dif_pos h] at hc
    simp only [List.mem_singleton] at hc
    subst hc
    interval_cases n <;> decide
  | case2 n h ih =>
    intro c hc
    rw [natDigits, dif_neg h] at hc
    rw [List.mem_append] at hc
    rcases hc with hc | hc
    · exact ih c hc
    · simp only [List.mem_singleton] at hc
      subst hc
      have hm : n % 10 < 10 := Nat.mod_lt _ (by norm_num)
      have hd := digitChar_toNat _ hm
      intro habs
      rw [habs] at hd
      simp at hd
      omega

theorem underscore_head_inj : ∀ (a1 a2 t1 t2 : Str),
    (∀ c ∈ a1, c ≠ '_') → (∀ c ∈ a2, c ≠ '_') →
    a1 ++ '_' :: t1 = a2 ++ '_' :: t2 → a1 = a2 := by
  intro a1
  induction a1 with
  | nil =>
    intro a2 t1 t2 _ h2 heq
    cases a2 with
    | nil => rfl
    | cons c t =>
      simp only [List.nil_append, List.cons_append] at heq
      injection heq with hc _
      exact absurd hc.symm (h2 c (List.mem_cons_self _ _))
  | cons c t ih =>
    intro a2 t1 t2 h1 h2 heq
    cases a2 with
    | nil =>
      simp only [List.cons_append, List.nil_append] at heq
      injection heq with hc _
      exact absurd hc (h1 c (List.mem_cons_self _ _))
    | cons c' t' =>
      simp only [List.cons_append] at heq
      injection heq with hc htail
      subst hc
      rw [ih t' t1 t2 (fun x hx => h1 x (List.mem_cons_of_mem _ hx))
        (fun x hx => h2 x (List.mem_cons_of_mem _ hx)) htail]

theorem append_underscore_digits_inj (s1 s2 d1 d2 : Str)
    (h1 : ∀ c ∈ d1, c ≠ '_') (h2 : ∀ c ∈ d2, c ≠ '_')
    (heq : s1 ++ '_' :: d1 = s2 ++ '_' :: d2) : d1 = d2 := by
  have hrev : d1.reverse ++ '_' :: s1.reverse = d2.reverse ++ '_' :: s2.reverse := by
    have h' := congrArg List.reverse heq
    simpa [List.reverse_append] using h'
  have h'' := underscore_head_inj d1.reverse d2.reverse s1.reverse s2.reverse
    (fun c hc => h1 c (List.mem_reverse.1 hc))
    (fun c hc => h2 c (List.mem_reverse.1 hc)) hrev
  have := congrArg List.reverse h''
  simpa using this

theorem mkAnonName_inj (c1 c2 : Nat) (m1 m2 : List Str)
    (h : mkAnonName c1 m1 = mkAnonName c2 m2) : c1 = c2 := by
  have key : ∀ (x1 x2 : Str),
      ("anonymous_enum_".data ++ x1 ++ "_".data ++ natDigits c1)
        = ("anonymous_enum_".data ++ x2 ++ "_".data ++ natDigits c2) → c1 = c2 := by
    intro x1 x2 hx
    have h' : x1 ++ '_' :: natDigits c1 = x2 ++ '_' :: natDigits c2 := by
      simpa [List.append_assoc] using hx
    exact natDigits_inj _ _ (append_underscore_digits_inj _ _ _ _
      (natDigits_no_underscore c1) (natDigits_no_underscore c2) h')
  unfold mkAnonName at h
  rcases m1 with _ | ⟨a, m1t⟩ <;> rcases m2 with _ | ⟨b, m2t⟩ <;> exact key _ _ h

theorem synthNames_shape : ∀ (idx : List (NodeId × EnumInfoV)) (c : Nat) (nm : Str),
    nm ∈ synthNamesList c idx → ∃ c' ms, nm = mkAnonName c' ms ∧ c < c' := by
  intro idx
  induction idx with
  | nil =>
    intro c nm h
    cases h
  | cons p rest ih =>
    intro c nm h
    obtain ⟨k, i⟩ := p
    unfold synthNamesList at h
    split at h
    · rcases List.mem_cons.1 h with rfl | h'
      · exact ⟨c + 1, i.members, rfl, Nat.lt_succ_self c⟩
      · obtain ⟨c', ms, hnm, hc⟩ := ih (c + 1) nm h'
        exact ⟨c', ms, hnm, by omega⟩
    · exact ih c nm h

theorem synthNames_pairwise (idx : List (NodeId × EnumInfoV)) :
    ∀ c, List.Pairwise (fun a b => a ≠ b) (synthNamesList c idx) := by
  induction idx with
  | nil =>
    intro c
    exact List.Pairwise.nil
  | cons p rest ih =>
    intro c
    obtain ⟨k, i⟩ := p
    unfold synthNamesList
    split
    · refine List.pairwise_cons.2 ⟨?_, ih (c + 1)⟩
      intro nm hnm heq
      obtain ⟨c', ms, rfl, hc⟩ := synthNames_shape rest (c + 1) nm hnm
      have := mkAnonName_inj _ _ _ _ heq
      omega
    · exact ih c

theorem assignAnonNames_names (idx : List (NodeId × EnumInfoV)) :
    ∀ c, ((assignAnonNames c idx).zip idx).filterMap
        (fun pq => if pq.2.2.name = [] then some pq.1.2.name else none)
      = synthNamesList c idx := by
  induction idx with
  | nil =>
    intro c
    rfl
  | cons p rest ih =>
    intro c
    obtain ⟨k, i⟩ := p
    unfold assignAnonNames synthNamesList
    by_cases hn : i.name = []
    · rw [if_pos hn, if_pos hn]
      rw [List.zip_cons_cons, List.filterMap_cons]
      dsimp only
      rw [if_pos hn, ih (c + 1)]
    · rw [if_neg hn, if_neg hn]
      rw [List.zip_cons_cons, List.filterMap_cons]
      dsimp only
      rw [if_neg hn, ih c]

-- ==================================================================
-- Claim C8 (confirmed)
-- ==================================================================

/-- C8: the anonymous-enum names synthesized by `build_enum_index`.  The
pass runs `assignAnonNames` from counter 0 over the collected index;
anonymous entries (empty name) receive, in order, exactly the names
`anonymous_enum_<first member (or counter)>_<counter>` listed by
`synthNamesList`; those names are pairwise distinct within the pass; and
re-running on an unmodified tree yields the same names, the counter being
pass-scoped (the embedding is a pure function of the tree). -/
theorem c8_anonymous_enum_names (root : Node) (idx : List (NodeId × EnumInfoV)) (c : Nat) :
    (buildEnumIndex root).1 = assignAnonNames 0 (buildEnumIndexPre root).1 ∧
    (((assignAnonNames c idx).zip idx).filterMap
        (fun pq => if pq.2.2.name = [] then some pq.1.2.name else none)
      = synthNamesList c idx) ∧
    List.Pairwise (fun a b => a ≠ b) (synthNamesList c idx) ∧
    (∀ ms c', ms ≠ [] →
      mkAnonName c' ms = "anonymous_enum_".data ++ ms.headD [] ++ "_".data ++ natDigits c') ∧
    (∀ root₂, root₂ = root → buildEnumIndex root₂ = buildEnumIndex root) := by
  refine ⟨rfl, assignAnonNames_names idx c, synthNames_pairwise idx c, ?_, ?_⟩
  · intro ms c' hms
    cases ms with
    | nil => exact absurd rfl hms
    | cons m rest => rfl
  · intro root₂ h
    rw [h]

/-- C8, witness: the theorem applied to a concrete two-entry index with
two anonymous enums gives distinct synthesized names, and to the fixture
tree for determinism. -/
theorem c8_anonymous_enum_names_witness :
    List.Pairwise (fun a b => a ≠ b)
      (synthNamesList 0
        [([], ⟨leafN "EnumType".data [], [], ["A".data]⟩),
         ([1], ⟨leafN "EnumType".data [], [], ["A".data]⟩)]) ∧
    buildEnumIndex c2Tree = buildEnumIndex c2Tree :=
  ⟨(c8_anonymous_enum_names c2Tree
      [([], ⟨leafN "EnumType".data [], [], ["A".data]⟩),
       ([1], ⟨leafN "EnumType".data [], [], ["A".data]⟩)] 0).2.2.1,
   (c8_anonymous_enum_names c2Tree [] 0).2.2.2.2 c2Tree rfl⟩
